import Mathlib

/-
Verification of the hotels-merge mapping engine (Go) against its
natural-language specification.

The Go code is shallowly embedded:
  * Go `interface{}` values decoded from JSON become the inductive `GoVal`
    (numbers are modelled as integers: every number exercised by the claims
    is integral, and the engine itself converts integral floats to int64);
  * Go strings become `List Char`; `len` on a Go string is UTF-8 byte
    length, modelled by `goLen`;
  * Go maps become association lists carrying one concrete iteration
    order; Go's map iteration order is unspecified, so properties that the
    spec states "regardless of order" are quantified over the list order;
  * functions that can return an error return `Except TErr`; a Go panic
    (failed type assertion) is modelled by the dedicated `TErr.panicIdMapping`
    constructor / by `Option.none` in `extractIdFieldMapping`.
-/

namespace HotelsMerge

/-- Go strings, modelled as rune (character) sequences. -/
abbrev GoStr := List Char

/-- Shorthand: the character list of a Lean string literal. -/
def gs (s : String) : GoStr := s.data

/-- Decoded JSON values as they appear in Go `interface{}` variables after
`encoding/json` unmarshalling / gjson extraction.  `vnull` doubles as the
Go `nil` interface (JSON `null` decodes to `nil`). -/
inductive GoVal where
  | vnull : GoVal
  | vstr (s : GoStr) : GoVal
  | vint (n : Int) : GoVal
  | vbool (b : Bool) : GoVal
  | varr (xs : List GoVal) : GoVal
  | vobj (fs : List (GoStr × GoVal)) : GoVal

instance : Inhabited GoVal := ⟨GoVal.vnull⟩

/-- Discriminant for the Go `value == nil` test. -/
def GoVal.isNull : GoVal → Bool
  | .vnull => true
  | _ => false

/-- First-match association-list lookup: the model of Go map indexing
(keys of JSON-decoded maps are distinct). -/
def alook {β : Type} : List (GoStr × β) → GoStr → Option β
  | [], _ => none
  | (k, v) :: rest, key => if k = key then some v else alook rest key

/-- Association-list insert-or-update: the model of a Go map assignment. -/
def aput {β : Type} : List (GoStr × β) → GoStr → β → List (GoStr × β)
  | [], key, v => [(key, v)]
  | (k, w) :: rest, key, v =>
      if k = key then (k, v) :: rest else (k, w) :: aput rest key v

/-- Whitespace as recognised by Go `unicode.IsSpace` (used by
`strings.TrimSpace`). -/
def isGoSpace (c : Char) : Bool :=
  c = ' ' || c = '\t' || c = '\n' || c.val = 11 || c.val = 12 || c = '\r' ||
  c.val = 0x85 || c.val = 0xA0 || c.val = 0x1680 ||
  (0x2000 ≤ c.val && c.val ≤ 0x200A) || c.val = 0x2028 || c.val = 0x2029 ||
  c.val = 0x202F || c.val = 0x205F || c.val = 0x3000

/-- Whitespace as recognised by the RE2 class `\s` in Go regexps:
exactly tab, newline, form feed, carriage return and space. -/
def isRegexSpace (c : Char) : Bool :=
  c = '\t' || c = '\n' || c.val = 12 || c = '\r' || c = ' '

/-- Go `strings.TrimSpace`. -/
def goTrimSpace (s : GoStr) : GoStr :=
  ((s.dropWhile isGoSpace).reverse.dropWhile isGoSpace).reverse

/-- UTF-8 encoded width of one rune (Go `len` counts bytes). -/
def utf8Width (c : Char) : Nat :=
  if c.val < 0x80 then 1
  else if c.val < 0x800 then 2
  else if c.val < 0x10000 then 3
  else 4

/-- Go `len` on a string: the number of UTF-8 bytes. -/
def goLen (s : GoStr) : Nat := (s.map utf8Width).sum

/-- Go `strings.ToLower`, restricted to the ASCII range that the amenity
vocabulary and all inputs of interest use. -/
def goToLower (s : GoStr) : GoStr := s.map Char.toLower

/-- Boolean prefix test (Go `strings.HasPrefix`). -/
def isPrefixL : GoStr → GoStr → Bool
  | [], _ => true
  | _ :: _, [] => false
  | a :: as, b :: bs => a = b && isPrefixL as bs

/-- Boolean substring test (Go `strings.Contains`). -/
def containsSub : GoStr → GoStr → Bool
  | [], pat => pat = []
  | c :: rest, pat => isPrefixL pat (c :: rest) || containsSub rest pat

/-- The reserved supplier marker `src::`. -/
def srcMarker : GoStr := gs "src::"

/-- Go `strings.TrimPrefix` after a successful `HasPrefix` test. -/
def trimMarker (p s : GoStr) : GoStr := s.drop p.length

/-- Split on the dot character (Go `strings.Split(path, ".")`),
used both by gjson paths and by `setNestedValue`. -/
def splitOnDot : GoStr → List GoStr
  | [] => [[]]
  | c :: rest =>
      if c = '.' then [] :: splitOnDot rest
      else match splitOnDot rest with
        | [] => [[c]]
        | p :: ps => (c :: p) :: ps

/-- Decimal digits of a natural number. -/
def natToStr (n : Nat) : GoStr := Nat.toDigits 10 n

/-- Decimal rendering of an integer (Go `strconv` formatting of int64). -/
def intToStr (n : Int) : GoStr :=
  if n < 0 then '-' :: natToStr n.natAbs else natToStr n.toNat

/-- The opening brace character. -/
def lbrace : Char := '\x7b'

/-- The closing brace character. -/
def rbrace : Char := '\x7d'

mutual
/-- Canonical JSON serialisation of a value; stands in for gjson's
`Result.Raw` (the engine only reaches it when an id value or a template
substitution is itself an array or object). -/
def jser : GoVal → GoStr
  | .vnull => gs "null"
  | .vstr s => '"' :: (s ++ ['"'])
  | .vint n => intToStr n
  | .vbool true => gs "true"
  | .vbool false => gs "false"
  | .varr xs => '[' :: (jserArr xs ++ [']'])
  | .vobj fs => lbrace :: (jserObj fs ++ [rbrace])

/-- Comma-separated serialisation of array elements. -/
def jserArr : List GoVal → GoStr
  | [] => []
  | [x] => jser x
  | x :: y :: rest => jser x ++ ',' :: jserArr (y :: rest)

/-- Comma-separated serialisation of object fields. -/
def jserObj : List (GoStr × GoVal) → GoStr
  | [] => []
  | [(k, v)] => '"' :: (k ++ '"' :: ':' :: jser v)
  | (k, v) :: e :: rest => '"' :: (k ++ '"' :: ':' :: jser v) ++ ',' :: jserObj (e :: rest)
end

mutual
/-- Go `fmt.Sprintf` with the `%v` verb, as used by `mergeLists` for its
de-duplication keys.  (For maps Go sorts the keys before printing; the
association order of the model's objects stands in for that canonical
order.) -/
def goFmt : GoVal → GoStr
  | .vnull => gs "<nil>"
  | .vstr s => s
  | .vint n => intToStr n
  | .vbool true => gs "true"
  | .vbool false => gs "false"
  | .varr xs => '[' :: (goFmtArr xs ++ [']'])
  | .vobj fs => gs "map[" ++ (goFmtObj fs ++ [']'])

/-- Space-separated `%v` rendering of list elements. -/
def goFmtArr : List GoVal → GoStr
  | [] => []
  | [x] => goFmt x
  | x :: y :: rest => goFmt x ++ ' ' :: goFmtArr (y :: rest)

/-- Space-separated `key:value` rendering of map entries. -/
def goFmtObj : List (GoStr × GoVal) → GoStr
  | [] => []
  | [(k, v)] => k ++ ':' :: goFmt v
  | (k, v) :: e :: rest => k ++ ':' :: goFmt v ++ ' ' :: goFmtObj (e :: rest)
end

/-- Navigation along a list of object keys (the decoded form of a gjson
dotted path; the mapping document uses only plain dotted keys). -/
def getPath : GoVal → List GoStr → Option GoVal
  | v, [] => some v
  | .vobj fs, k :: rest =>
      match alook fs k with
      | some w => getPath w rest
      | none => none
  | _, _ :: _ => none

/-- Model of `gjson.Get(json, path)` for the dotted paths the mapping uses;
`none` is a missing result (`Exists()` false). -/
def gjsonGet (v : GoVal) (path : GoStr) : Option GoVal :=
  getPath v (splitOnDot path)

/-- Model of gjson `Result.String()`: the string form of a value (empty
for null, matching Go, where a JSON null also groups as an empty id). -/
def gjsonString : GoVal → GoStr
  | .vnull => []
  | .vstr s => s
  | .vint n => intToStr n
  | .vbool true => gs "true"
  | .vbool false => gs "false"
  | .varr xs => jser (.varr xs)
  | .vobj fs => jser (.vobj fs)

/-- Model of `isTemplate`: the expression contains both an opening and a
closing double brace. -/
def isTemplate (s : GoStr) : Bool :=
  containsSub s [lbrace, lbrace] && containsSub s [rbrace, rbrace]

/-- All submatches of the Go regexp pattern for template variables (an
opening double brace, one or more characters other than a closing brace,
then a closing double brace), leftmost-first and non-overlapping — the
model of `re.FindAllStringSubmatch(template, -1)` restricted to the inner
capture group. -/
def findPlaceholders : GoStr → List GoStr
  | [] => []
  | c :: rest =>
    if c = lbrace then
      match rest with
      | [] => []
      | c2 :: rest2 =>
        if c2 = lbrace then
          match hA : rest2.dropWhile (fun ch => ch ≠ rbrace), rest2.takeWhile (fun ch => ch ≠ rbrace) with
          | a1 :: a2 :: rest3, i0 :: irest =>
            if a1 = rbrace ∧ a2 = rbrace then
              (i0 :: irest) :: findPlaceholders rest3
            else findPlaceholders (c2 :: rest2)
          | _, _ => findPlaceholders (c2 :: rest2)
        else findPlaceholders (c2 :: rest2)
    else findPlaceholders rest
termination_by s => s.length
decreasing_by
  · have h1 : (rest2.dropWhile (fun ch => decide (ch ≠ rbrace))).length ≤ rest2.length :=
      (List.dropWhile_sublist _).length_le
    rw [hA] at h1
    simp only [List.length_cons] at h1 ⊢
    omega
  all_goals simp only [List.length_cons]; omega

/-- One pass of Go `strings.ReplaceAll` with a non-empty pattern
`p :: ps`: replace every non-overlapping leftmost occurrence, never
rescanning replacement text. -/
def replaceAllAux (p : Char) (ps rep : GoStr) : GoStr → GoStr
  | [] => []
  | c :: rest =>
    if isPrefixL (p :: ps) (c :: rest) then
      rep ++ replaceAllAux p ps rep (rest.drop ps.length)
    else c :: replaceAllAux p ps rep rest
termination_by s => s.length
decreasing_by
  · simp
    have := rest.length_drop ps.length
    omega
  · simp

/-- Go `strings.ReplaceAll`. -/
def replaceAll (s pat rep : GoStr) : GoStr :=
  match pat with
  | [] => s
  | p :: ps => replaceAllAux p ps rep s

/-- Attempt to match the Go regexp that collapses doubled commas (a run of
regex whitespace, a comma, whitespace, a comma, whitespace, all greedy) at
the head of the string; on success return the remainder after the match.
The whitespace class contains no comma, so the greedy match is
deterministic. -/
def matchCommaRun (s : GoStr) : Option GoStr :=
  match s.dropWhile isRegexSpace with
  | ',' :: t1 =>
    match t1.dropWhile isRegexSpace with
    | ',' :: t3 => some (t3.dropWhile isRegexSpace)
    | _ => none
  | _ => none

/-- The replacement pass of the Go regexp substitution collapsing
`whitespace, comma, whitespace, comma, whitespace` runs to a comma and a
space: leftmost non-overlapping matches, scanning left to right. -/
def collapseCommaRun : GoStr → GoStr
  | [] => []
  | c :: rest =>
    match hM : matchCommaRun (c :: rest) with
    | some r => ',' :: ' ' :: collapseCommaRun r
    | none => c :: collapseCommaRun rest
termination_by s => s.length
decreasing_by
  · unfold matchCommaRun at hM
    split at hM
    next t1 heq1 =>
      split at hM
      next t3 heq2 =>
        have h1 : ((c :: rest).dropWhile isRegexSpace).length ≤ (c :: rest).length :=
          (List.dropWhile_sublist _).length_le
        have h2 : (t1.dropWhile isRegexSpace).length ≤ t1.length :=
          (List.dropWhile_sublist _).length_le
        have h3 : (t3.dropWhile isRegexSpace).length ≤ t3.length :=
          (List.dropWhile_sublist _).length_le
        rw [heq1] at h1
        rw [heq2] at h2
        simp only [List.length_cons] at h1 h2 ⊢
        cases hM
        omega
      next => exact absurd hM (by simp)
    next => exact absurd hM (by simp)
  · simp

/-- The leading-edge alternative of the Go regexp that strips a leading
comma together with the whitespace run after it. -/
def stripLeading (s : GoStr) : GoStr :=
  match s with
  | ',' :: rest => rest.dropWhile isRegexSpace
  | _ => s

/-- The trailing-edge alternative: remove the first comma whose entire
suffix is regex whitespace, together with that suffix (at most one such
comma can exist). -/
def stripTrailing : GoStr → GoStr
  | [] => []
  | ',' :: rest => if rest.all isRegexSpace then [] else ',' :: stripTrailing rest
  | c :: rest => c :: stripTrailing rest

/-- The template clean-up applied after substitution: trim, collapse
doubled commas, strip edge commas. -/
def postProcessTemplate (s : GoStr) : GoStr :=
  stripTrailing (stripLeading (collapseCommaRun (goTrimSpace s)))

/-- String form substituted for one template variable: the string form of
the value at the variable's path, or empty when the path is absent. -/
def templateValue (sourceData : GoVal) (field : GoStr) : GoStr :=
  match gjsonGet sourceData field with
  | some v => gjsonString v
  | none => []

/-- The full placeholder text of one template variable (`match[0]`). -/
def patOf (n : GoStr) : GoStr := lbrace :: lbrace :: (n ++ [rbrace, rbrace])

/-- The substitution loop of `processTemplate`: for each submatch in
order, `strings.ReplaceAll` of the full placeholder by the substituted
value, on the accumulated result. -/
def substPlaceholders (sourceData : GoVal) (tmpl : GoStr) : GoStr :=
  (findPlaceholders tmpl).foldl
    (fun result field =>
      replaceAll result (patOf field) (templateValue sourceData field))
    tmpl

/-- Model of `processTemplate`: substitute every template variable, then
clean up commas and whitespace. -/
def processTemplate (sourceData : GoVal) (tmpl : GoStr) : GoStr :=
  postProcessTemplate (substPlaceholders sourceData tmpl)

/-- The accumulating loop of `selectStringBestValue`: keep the trimmed
candidate when it is a non-empty string strictly longer (in bytes) than
the best so far. -/
def selBestAux : List (GoStr × GoVal) → GoStr → GoStr
  | [], longest => longest
  | (_, v) :: rest, longest =>
    match v with
    | .vstr s =>
      if goTrimSpace s ≠ [] ∧ goLen longest < goLen (goTrimSpace s) then
        selBestAux rest (goTrimSpace s)
      else selBestAux rest longest
    | _ => selBestAux rest longest

/-- Model of `selectStringBestValue`: the longest (by Go `len`, i.e. byte
count) non-empty trimmed string among the collected values, the earliest
maximal candidate winning ties. -/
def selectStringBestValue (values : List (GoStr × GoVal)) : GoStr :=
  selBestAux values []

/-- The iteration of `selectBestValue` over the collected values in one
concrete order: skip nils; on the first non-nil value, sniff its type. -/
def selectBestValueLoop (all : List (GoStr × GoVal)) :
    List (GoStr × GoVal) → GoVal
  | [] => .vnull
  | (_, v) :: rest =>
    if v.isNull then selectBestValueLoop all rest
    else match v with
      | .vstr s =>
          if goTrimSpace s ≠ [] then .vstr (selectStringBestValue all)
          else .vstr s
      | w => w

/-- Model of `selectBestValue`, the default best-value policy. -/
def selectBestValue (values : List (GoStr × GoVal)) : GoVal :=
  selectBestValueLoop values values

/-- The hard-coded general amenity vocabulary. -/
def generalAmenity : List (GoStr × GoStr) :=
  [ (gs "businesscenter", gs "business center"),
    (gs "business center", gs "business center"),
    (gs "gym", gs "gym"),
    (gs "outdoor pool", gs "outdoor pool"),
    (gs "indoor pool", gs "indoor pool"),
    (gs "pool", gs "outdoor pool"),
    (gs "airport shuttle", gs "airport shuttle"),
    (gs "childcare", gs "childcare"),
    (gs "wifi", gs "wifi"),
    (gs "drycleaning", gs "dry cleaning"),
    (gs "dry cleaning", gs "dry cleaning"),
    (gs "breakfast", gs "breakfast"),
    (gs "bar", gs "bar"),
    (gs "parking", gs "parking"),
    (gs "concierge", gs "concierge") ]

/-- The hard-coded room amenity vocabulary. -/
def roomAmenity : List (GoStr × GoStr) :=
  [ (gs "aircon", gs "aircon"),
    (gs "tv", gs "tv"),
    (gs "coffee machine", gs "coffee machine"),
    (gs "kettle", gs "kettle"),
    (gs "hair dryer", gs "hair dryer"),
    (gs "iron", gs "iron"),
    (gs "bathtub", gs "bathtub"),
    (gs "tub", gs "bathtub"),
    (gs "minibar", gs "minibar") ]

mutual
/-- Model of the engine's `toLowerCase` action: lower-case a string, map
over an array element-wise, pass anything else through. -/
def toLowerCase : GoVal → GoVal
  | .vstr s => .vstr (goToLower s)
  | .varr xs => .varr (toLowerCaseList xs)
  | v => v

/-- Element-wise lower-casing of a decoded array. -/
def toLowerCaseList : List GoVal → List GoVal
  | [] => []
  | v :: rest => toLowerCase v :: toLowerCaseList rest
end

/-- The flattening step of `mergeLists`: array values contribute their
elements, any other value contributes itself. -/
def flattenForMerge : List GoVal → List GoVal
  | [] => []
  | .varr xs :: rest => xs ++ flattenForMerge rest
  | v :: rest => v :: flattenForMerge rest

/-- The de-duplicating accumulation of `mergeLists`, keyed by the `%v`
rendering of each item; preserves first occurrence. -/
def mergeItems : List GoVal → List GoStr → List GoVal
  | [], _ => []
  | it :: rest, seen =>
    if goFmt it ∈ seen then mergeItems rest seen
    else it :: mergeItems rest (goFmt it :: seen)

/-- Model of `mergeLists`: concatenate all per-supplier values (elements
of arrays, scalars as themselves), de-duplicating by string form. -/
def mergeLists (values : List (GoStr × GoVal)) : GoVal :=
  .varr (mergeItems
    (flattenForMerge ((values.map Prod.snd).filter (fun v => !v.isNull))) [])

/-- The vocabulary filter of `normalizeAmenities`: keep the canonical form
of each known string, discard unknowns, de-duplicate.  (Go collects the
canonical forms in a map and emits its keys; the model emits them in first
insertion order, one of Go's unspecified range orders.) -/
def collectSeen (amap : List (GoStr × GoStr)) :
    List GoVal → List GoStr → List GoStr
  | [], seen => seen
  | v :: rest, seen =>
    match v with
    | .vstr s =>
      match alook amap s with
      | some norm =>
          if norm ∈ seen then collectSeen amap rest seen
          else collectSeen amap rest (seen ++ [norm])
      | none => collectSeen amap rest seen
    | _ => collectSeen amap rest seen

/-- Model of `normalizeAmenities`.  Faithful to the Go loop shape: the
`break` sits at the end of the loop body, outside the conditional, so only
the first value in iteration order is ever examined; all suppliers' lists
are merged only when that first value happens to be a non-empty array. -/
def normalizeAmenities (values : List (GoStr × GoVal))
    (amap : List (GoStr × GoStr)) : GoVal :=
  let seen : List GoStr :=
    match values with
    | [] => []
    | (_, v) :: _ =>
      match v with
      | .varr arr =>
        if arr.isEmpty then []
        else
          match toLowerCase (mergeLists values) with
          | .varr lowered => collectSeen amap lowered []
          | _ => []
      | _ => []
  .varr (seen.map GoVal.vstr)

/-- Model of `normalizeGeneralAmenities`. -/
def normalizeGeneralAmenities (values : List (GoStr × GoVal)) : GoVal :=
  normalizeAmenities values generalAmenity

/-- Model of `normalizeRoomAmenities`. -/
def normalizeRoomAmenities (values : List (GoStr × GoVal)) : GoVal :=
  normalizeAmenities values roomAmenity

/-- The inner loop of `normalizeObject`: the first candidate field whose
value in the object is a string that is non-empty after trimming, trimmed. -/
def firstCandidate (obj : List (GoStr × GoVal)) : List GoStr → Option GoStr
  | [] => none
  | c :: rest =>
    match alook obj c with
    | some (.vstr s) =>
        if goTrimSpace s ≠ [] then some (goTrimSpace s)
        else firstCandidate obj rest
    | _ => firstCandidate obj rest

/-- Model of `normalizeObject`: for every entry of the field-alias table,
copy the first valid candidate value into the target field. -/
def normalizeObject (obj : List (GoStr × GoVal))
    (fieldMapping : List (GoStr × List GoStr)) : List (GoStr × GoVal) :=
  fieldMapping.foldl
    (fun res kv =>
      match firstCandidate obj kv.2 with
      | some s => aput res kv.1 (.vstr s)
      | none => res)
    []

/-- The per-array loop of `mergeObjectArrays`: normalize each object,
keep it when its unique-identifier field is a non-empty string not seen
before; returns the kept objects and the updated seen set. -/
def mergeObjsInner (fieldMapping : List (GoStr × List GoStr)) (uid : GoStr) :
    List GoVal → List GoStr → List (List (GoStr × GoVal)) × List GoStr
  | [], seen => ([], seen)
  | el :: rest, seen =>
    match el with
    | .vobj fs =>
      let norm := normalizeObject fs fieldMapping
      match alook norm uid with
      | some (.vstr s) =>
        if s ≠ [] ∧ s ∉ seen then
          let p := mergeObjsInner fieldMapping uid rest (s :: seen)
          (norm :: p.1, p.2)
        else mergeObjsInner fieldMapping uid rest seen
      | _ => mergeObjsInner fieldMapping uid rest seen
    | _ => mergeObjsInner fieldMapping uid rest seen

/-- The per-supplier loop of `mergeObjectArrays` over the collected
values in one concrete order. -/
def mergeObjsOuter (fieldMapping : List (GoStr × List GoStr)) (uid : GoStr) :
    List GoVal → List GoStr → List (List (GoStr × GoVal))
  | [], _ => []
  | v :: rest, seen =>
    match v with
    | .varr els =>
      let p := mergeObjsInner fieldMapping uid els seen
      p.1 ++ mergeObjsOuter fieldMapping uid rest p.2
    | _ => mergeObjsOuter fieldMapping uid rest seen

/-- Model of `mergeObjectArrays`: normalize every object of every
supplier's array and de-duplicate by the unique identifier field. -/
def mergeObjectArrays (values : List (GoStr × GoVal))
    (fieldMapping : List (GoStr × List GoStr)) (uid : GoStr) : GoVal :=
  .varr ((mergeObjsOuter fieldMapping uid (values.map Prod.snd) []).map GoVal.vobj)

/-- The parsed form of one leaf mapping (Go struct `FieldMapping`). -/
structure FieldMapping where
  sourcePaths : List (GoStr × GoVal)
  actions : List GoStr
  fieldAlias : List (GoStr × List GoStr)

/-- The strings of a decoded `actions` array (non-strings are skipped). -/
def parseActions : GoVal → List GoStr
  | .varr items =>
      items.filterMap (fun it =>
        match it with
        | .vstr s => some s
        | _ => none)
  | _ => []

/-- The decoded `field_mapping` table: for each entry whose value is an
array, the candidate field names that are strings. -/
def parseFieldAlias : GoVal → List (GoStr × List GoStr)
  | .vobj fs =>
      fs.filterMap (fun kv =>
        match kv.2 with
        | .varr items =>
            some (kv.1, items.filterMap (fun it =>
              match it with
              | .vstr s => some s
              | _ => none))
        | _ => none)
  | _ => []

/-- Model of `parseFieldMapping`: partition a leaf's entries into source
paths, actions and the field-alias table. -/
def parseFieldMapping (mapping : List (GoStr × GoVal)) : FieldMapping :=
  mapping.foldl
    (fun fm kv =>
      if isPrefixL srcMarker kv.1 then
        { fm with sourcePaths := fm.sourcePaths ++ [(kv.1, kv.2)] }
      else if kv.1 = gs "actions" then
        { fm with actions := fm.actions ++ parseActions kv.2 }
      else if kv.1 = gs "field_mapping" then
        { fm with fieldAlias := fm.fieldAlias ++ parseFieldAlias kv.2 }
      else fm)
    ⟨[], [], []⟩

/-- Model of `extractValue`: a template expression yields a substituted
string; a path expression yields the typed value at the path (absent and
null both yield nil); a non-string expression yields nil. -/
def extractValue (sourceData : GoVal) (pathOrTemplate : GoVal) : GoVal :=
  match pathOrTemplate with
  | .vstr pathStr =>
    if isTemplate pathStr then .vstr (processTemplate sourceData pathStr)
    else
      match gjsonGet sourceData pathStr with
      | none => .vnull
      | some r => r
  | _ => .vnull

/-- Model of `extractValuesFromSources`: evaluate each `src::` entry of
the leaf against the matching supplier record of the group, storing
non-nil results keyed by the full `src::` key. -/
def extractValuesFromSources (sourcePaths : List (GoStr × GoVal))
    (sources : List (GoStr × GoVal)) : List (GoStr × GoVal) :=
  sourcePaths.foldl
    (fun vals kv =>
      match alook sources (trimMarker srcMarker kv.1) with
      | some sourceData =>
        let v := extractValue sourceData kv.2
        if v.isNull then vals else aput vals kv.1 v
      | none => vals)
    []

/-- Model of `applyActions`: pipe through the declared actions in order;
the running result starts as Go `nil` and unknown actions leave it
unchanged. -/
def applyActions (values : List (GoStr × GoVal)) (actions : List GoStr)
    (fieldMapping : FieldMapping) : GoVal :=
  actions.foldl
    (fun result action =>
      let a := goTrimSpace action
      if a = gs "normalize_general_amenities" then
        normalizeGeneralAmenities values
      else if a = gs "normalize_room_amenities" then
        normalizeRoomAmenities values
      else if a = gs "merge_image_arrays" then
        mergeObjectArrays values fieldMapping.fieldAlias (gs "link")
      else if a = gs "to_lowercase" then
        toLowerCase result
      else result)
    .vnull

/-- Model of `isLeafMapping`: a mapping node is a leaf iff it has a key
with the supplier marker. -/
def isLeafMapping (mapping : List (GoStr × GoVal)) : Bool :=
  mapping.any (fun kv => isPrefixL srcMarker kv.1)

/-- Model of `processLeafMapping` (it never returns a Go error: both
reduction paths are total). -/
def processLeafMapping (mapping : List (GoStr × GoVal))
    (sources : List (GoStr × GoVal)) : GoVal :=
  let fm := parseFieldMapping mapping
  let values := extractValuesFromSources fm.sourcePaths sources
  if fm.actions.isEmpty then selectBestValue values
  else applyActions values fm.actions fm

/-- The recursion of `setNestedValue` along the split path: create
missing intermediate objects, silently skip on a path conflict, overwrite
the final key. -/
def setNestedParts : List (GoStr × GoVal) → List GoStr → GoVal →
    List (GoStr × GoVal)
  | res, [], _ => res
  | res, [k], v => aput res k v
  | res, k :: k2 :: rest, v =>
    match alook res k with
    | none => aput res k (.vobj (setNestedParts [] (k2 :: rest) v))
    | some (.vobj inner) => aput res k (.vobj (setNestedParts inner (k2 :: rest) v))
    | some _ => res

/-- Model of `setNestedValue`: write a non-nil value at a dotted path of
the output object. -/
def setNestedValue (result : List (GoStr × GoVal)) (path : GoStr)
    (value : GoVal) : List (GoStr × GoVal) :=
  if value.isNull then result
  else if path = [] then result
  else setNestedParts result (splitOnDot path) value

/-- Path accumulation of the tree walker. -/
def joinPath (path key : GoStr) : GoStr :=
  if path = [] then key else path ++ '.' :: key

mutual
/-- The leaf writes performed by the walk of `processMapping`, in
depth-first order: a leaf node contributes its resolved value at the
accumulated output path; an interior node contributes its children's
writes in iteration order.  (The Go function performs each write on a
shared result map the moment it reaches the leaf; the model lists the
writes in the identical walk order and `processMapping` folds them into
the result, applying the same `setNestedValue` calls in the same order.) -/
def collectWrites (sources : List (GoStr × GoVal)) (currentPath : GoStr) :
    GoVal → List (GoStr × GoVal)
  | .vobj entries =>
    match isLeafMapping entries with
    | true => [(currentPath, processLeafMapping entries sources)]
    | false => collectWritesChildren sources currentPath entries
  | _ => []

/-- The writes of an interior node's children, in the node's iteration
order. -/
def collectWritesChildren (sources : List (GoStr × GoVal))
    (currentPath : GoStr) :
    List (GoStr × GoVal) → List (GoStr × GoVal)
  | [] => []
  | (key, value) :: rest =>
    collectWrites sources (joinPath currentPath key) value ++
      collectWritesChildren sources currentPath rest
end

/-- Model of `processMapping`: walk the mapping tree depth-first, resolve
each leaf and write its value at the accumulated output path.  (The Go
function's error return is dead code: leaf resolution is total.) -/
def processMapping (sources : List (GoStr × GoVal)) (currentPath : GoStr)
    (config : GoVal) (result : List (GoStr × GoVal)) : List (GoStr × GoVal) :=
  (collectWrites sources currentPath config).foldl
    (fun res w => setNestedValue res w.1 w.2) result

/-- Grouping errors and the modelled panic of the id-mapping extraction. -/
inductive TErr where
  | panicIdMapping : TErr
  | notArray (source : GoStr) : TErr
  | noIdMapping (source : GoStr) : TErr
deriving DecidableEq

/-- The collection loop inside `extractIdFieldMapping` over the `id`
leaf's entries: every `src::` entry must be a string, a non-string value
is a failed type assertion (Go panic), modelled as `none`. -/
def collectIdEntries : List (GoStr × GoVal) → Option (List (GoStr × GoStr))
  | [] => some []
  | (k, v) :: rest =>
    if isPrefixL srcMarker k then
      match v with
      | .vstr s => (collectIdEntries rest).map
          (fun m => (trimMarker srcMarker k, s) :: m)
      | _ => none
    else collectIdEntries rest

/-- Model of `extractIdFieldMapping`: read the per-supplier identity paths
from the top-level `id` leaf.  `none` models the Go panic that occurs when
the `id` key is absent or not an object (a failed type assertion on the
interface value), or when a `src::` entry is not a string. -/
def extractIdFieldMapping (config : List (GoStr × GoVal)) :
    Option (List (GoStr × GoStr)) :=
  match alook config (gs "id") with
  | some (.vobj fields) => collectIdEntries fields
  | _ => none

/-- Hotel groups: identity, then supplier name, then that supplier's
record. -/
abbrev Groups := List (GoStr × List (GoStr × GoVal))

/-- Insertion of one record into the groups: extend the existing group of
this identity, or append a fresh group. -/
def putGroup : Groups → GoStr → GoStr → GoVal → Groups
  | [], id, srcName, item => [(id, [(srcName, item)])]
  | (gid, m) :: rest, id, srcName, item =>
    if gid = id then (gid, aput m srcName item) :: rest
    else (gid, m) :: putGroup rest id srcName item

/-- The identity string of one record of one supplier, when present and
non-empty (records with an absent or empty identity are skipped with a
warning). -/
def idOfItem (idField : GoStr) (item : GoVal) : Option GoStr :=
  match gjsonGet item idField with
  | none => none
  | some v => if gjsonString v = [] then none else some (gjsonString v)

/-- The per-supplier loop body of `groupHotelsById`: fold every record of
one payload into the groups. -/
def processSource (idField srcName : GoStr) (items : List GoVal)
    (groups : Groups) : Groups :=
  items.foldl
    (fun gset item =>
      match idOfItem idField item with
      | none => gset
      | some idStr => putGroup gset idStr srcName item)
    groups

/-- The supplier loop of `groupHotelsById`: each payload must decode as
an array and each supplier must have an id-path entry, otherwise the whole
grouping fails. -/
def groupSources (idMap : List (GoStr × GoStr)) :
    List (GoStr × GoVal) → Groups → Except TErr Groups
  | [], groups => .ok groups
  | (name, payload) :: rest, groups =>
    match payload with
    | .varr items =>
      match alook idMap name with
      | some idField =>
          groupSources idMap rest (processSource idField name items groups)
      | none => .error (.noIdMapping name)
    | _ => .error (.notArray name)

/-- Model of `groupHotelsById`. -/
def groupHotelsById (config : List (GoStr × GoVal))
    (sources : List (GoStr × GoVal)) : Except TErr Groups :=
  match extractIdFieldMapping config with
  | none => .error .panicIdMapping
  | some idMap => groupSources idMap sources []

/-- One record group transformed through the whole mapping tree. -/
def processGroup (config : List (GoStr × GoVal))
    (group : List (GoStr × GoVal)) : List (GoStr × GoVal) :=
  processMapping group [] (.vobj config) []

/-- Model of `Transform`: group records by identity, then transform each
group through the mapping; the per-group error branch of the Go loop is
dead code, so every group yields exactly one record. -/
def Transform (config : List (GoStr × GoVal))
    (sources : List (GoStr × GoVal)) :
    Except TErr (List (List (GoStr × GoVal))) :=
  (groupHotelsById config sources).map
    (fun groups => groups.map (fun g => processGroup config g.2))

/-- Model of `NewMappingEngine`: the mapping bytes must decode into a Go
map, i.e. be a JSON object. -/
def NewMappingEngine : GoVal → Option (List (GoStr × GoVal))
  | .vobj fs => some fs
  | _ => none

/-- The catalog entry fields relevant to the query handlers. -/
structure Hotel where
  Id : GoStr
  DestinationId : Int
deriving DecidableEq

/-- HTTP responses of the handlers: an encoded hotel list, or an error
status with a message (`http.Error`, which writes no catalog records). -/
inductive HResp where
  | ok (hotels : List Hotel) : HResp
  | badRequest (msg : GoStr) : HResp
deriving DecidableEq

/-- Model of `url.Values.Get`: the first value for the key, empty when
the parameter is absent. -/
def queryGet (query : List (GoStr × GoStr)) (key : GoStr) : GoStr :=
  (alook query key).getD []

/-- Model of `HotelStore.FilterById`: the singleton of the first hotel
with the given identity, or the empty catalog. -/
def FilterById (hotels : List Hotel) (id : GoStr) : List Hotel :=
  match hotels.find? (fun h => h.Id = id) with
  | some h => [h]
  | none => []

/-- Model of `HotelStore.FilterByDestination`: all hotels with the given
destination identifier. -/
def FilterByDestination (hotels : List Hotel) (destinationId : Int) :
    List Hotel :=
  hotels.filter (fun h => h.DestinationId = destinationId)

/-- Digit run to number, for `strconv.Atoi` (empty or non-digit input is
an error). -/
def digitsToNat (s : GoStr) : Option Nat :=
  if s ≠ [] ∧ s.all Char.isDigit then
    some (s.foldl (fun a c => 10 * a + (c.toNat - 48)) 0)
  else none

/-- Model of `strconv.Atoi`. -/
def atoi : GoStr → Option Int
  | [] => none
  | '+' :: rest => (digitsToNat rest).map Int.ofNat
  | '-' :: rest => (digitsToNat rest).map (fun n => -(n : Int))
  | s => (digitsToNat s).map Int.ofNat

/-- Model of `handleGetAllHotels`: encode the whole catalog. -/
def handleGetAllHotels (store : List Hotel) : HResp :=
  .ok store

/-- Model of `handleQueryHotels` (the revision with the conflicting-query
check): neither parameter delegates to `handleGetAllHotels`; both
parameters is a client error; otherwise filter by the one parameter. -/
def handleQueryHotels (store : List Hotel) (query : List (GoStr × GoStr)) :
    HResp :=
  let id := queryGet query (gs "id")
  let destinationId := queryGet query (gs "destination_id")
  if id = [] ∧ destinationId = [] then handleGetAllHotels store
  else if id ≠ [] ∧ destinationId ≠ [] then
    .badRequest (gs "Only one query parameter (id or destination_id) can be provided at a time")
  else if id ≠ [] then .ok (FilterById store id)
  else
    match atoi destinationId with
    | none => .badRequest (gs "Invalid destination_id")
    | some destIdInt => .ok (FilterByDestination store destIdInt)

/-- Array discriminant (the gjson `IsArray` check on a decoded payload). -/
def isArrayVal : GoVal → Bool
  | .varr _ => true
  | _ => false

/-- The identities of the groups, in insertion order. -/
def groupKeys (groups : Groups) : List GoStr := groups.map Prod.fst

/-- First-occurrence de-duplication of a stream of identities into an
accumulator, mirroring how group insertion creates keys. -/
def dedupInto (acc : List GoStr) : List GoStr → List GoStr
  | [] => acc
  | i :: rest => if i ∈ acc then dedupInto acc rest else dedupInto (acc ++ [i]) rest

/-- The non-empty identities of one supplier payload, in payload order. -/
def sourceIds (idField : GoStr) (items : List GoVal) : List GoStr :=
  items.filterMap (idOfItem idField)

/-- The stream of non-empty identities contributed by all supplier
payloads, in one concrete supplier iteration order. -/
def idStream (idMap : List (GoStr × GoStr)) (sources : List (GoStr × GoVal)) :
    List GoStr :=
  sources.flatMap (fun np =>
    match np.2, alook idMap np.1 with
    | .varr items, some idField => sourceIds idField items
    | _, _ => [])

/-- A collected value's contribution to the default string policy: its
trimmed content when it is a string that is non-empty after trimming. -/
def trimmedStringCand : GoVal → Option GoStr
  | .vstr s => if goTrimSpace s ≠ [] then some (goTrimSpace s) else none
  | _ => none

/-- The non-empty trimmed string candidates among the collected values,
in iteration order. -/
def nonEmptyTrimmed (values : List (GoStr × GoVal)) : List GoStr :=
  values.filterMap (fun kv => trimmedStringCand kv.2)

/-- The first non-nil collected value in iteration order. -/
def firstNonNull (values : List (GoStr × GoVal)) : Option GoVal :=
  (values.map Prod.snd).find? (fun v => !v.isNull)

/-- A string with no brace characters. -/
def braceFree (s : GoStr) : Bool :=
  s.all (fun c => c ≠ lbrace && c ≠ rbrace)

/-- Structured view of a template: literal text alternating with
placeholders. -/
inductive TmplSeg where
  | lit (s : GoStr) : TmplSeg
  | ph (name : GoStr) : TmplSeg

/-- The template string denoted by a structured template: placeholders
are wrapped in double braces. -/
def renderTemplate : List TmplSeg → GoStr
  | [] => []
  | .lit s :: rest => s ++ renderTemplate rest
  | .ph n :: rest => lbrace :: lbrace :: (n ++ rbrace :: rbrace :: renderTemplate rest)

/-- The placeholder names of a structured template, in order. -/
def segNames : List TmplSeg → List GoStr
  | [] => []
  | .lit _ :: rest => segNames rest
  | .ph n :: rest => n :: segNames rest

/-- Direct declarative substitution: each placeholder is replaced in
place by the string form of the value at its path. -/
def specSubstitute (record : GoVal) : List TmplSeg → GoStr
  | [] => []
  | .lit s :: rest => s ++ specSubstitute record rest
  | .ph n :: rest => templateValue record n ++ specSubstitute record rest

/-- Shape side conditions for one segment: literal text is brace-free,
placeholder names are non-empty and brace-free. -/
def goodShape : TmplSeg → Prop
  | .lit s => braceFree s = true
  | .ph n => n ≠ [] ∧ braceFree n = true

/-- Full side conditions for one segment against a record: additionally
the substituted value for a placeholder is brace-free. -/
def goodSeg (record : GoVal) : TmplSeg → Prop
  | .lit s => braceFree s = true
  | .ph n => n ≠ [] ∧ braceFree n = true ∧ braceFree (templateValue record n) = true

/-- Replacement of every placeholder of one name by a literal. -/
def replaceSeg (record : GoVal) (n : GoStr) : TmplSeg → TmplSeg
  | .ph m => if m = n then .lit (templateValue record n) else .ph m
  | s => s

/-- Replacement of a placeholder by its substituted value, for the fully
substituted form of a structured template. -/
def substSeg (record : GoVal) : TmplSeg → TmplSeg
  | .ph m => .lit (templateValue record m)
  | s => s

/-- The declarative reading of one field-alias candidate: the trimmed
value when the object holds a string that is non-empty after trimming. -/
def candValue (obj : List (GoStr × GoVal)) (c : GoStr) : Option GoStr :=
  match alook obj c with
  | some (.vstr s) => if goTrimSpace s ≠ [] then some (goTrimSpace s) else none
  | _ => none

/-- Declarative first-candidate rule: the first candidate in order with a
valid value. -/
def specFirstCandidate (obj : List (GoStr × GoVal)) (cands : List GoStr) :
    Option GoStr :=
  (cands.filterMap (candValue obj)).head?

/-- The unique-identifier string of a merged object, when present. -/
def objLink (uid : GoStr) (o : List (GoStr × GoVal)) : Option GoStr :=
  match alook o uid with
  | some (.vstr s) => some s
  | _ => none

/-- Decidable form of the precondition under which the identity
extraction cannot panic: the mapping has a top-level `id` object whose
`src::`-prefixed entries are all strings. -/
def idPrecondHolds (config : List (GoStr × GoVal)) : Bool :=
  match alook config (gs "id") with
  | some (.vobj fields) =>
      fields.all (fun kv =>
        !isPrefixL srcMarker kv.1 ||
        (match kv.2 with
         | .vstr _ => true
         | _ => false))
  | _ => false

/-- When every `src::` entry of the `id` leaf is a string, the id
collection succeeds (no type-assertion panic). -/
theorem collectIdEntries_isSome (fields : List (GoStr × GoVal))
    (h : ∀ kv ∈ fields, isPrefixL srcMarker kv.1 = true → ∃ s, kv.2 = GoVal.vstr s) :
    (collectIdEntries fields).isSome = true := by
  induction fields with
  | nil => simp [collectIdEntries]
  | cons kv rest ih =>
    have hrest := fun kv2 hm => h kv2 (List.mem_cons_of_mem _ hm)
    by_cases hp : isPrefixL srcMarker kv.1 = true
    · obtain ⟨s, hs⟩ := h kv (List.mem_cons_self _ _) hp
      simp only [collectIdEntries, hp, if_true, hs]
      cases hco : collectIdEntries rest with
      | none => rw [hco] at ih; exact absurd (ih hrest) (by simp)
      | some m2 => simp
    · simp only [collectIdEntries, hp, if_false]
      exact ih hrest

/-- Conversely, a successful id collection means every `src::` entry of
the `id` leaf is a string. -/
theorem collectIdEntries_some_strings {fields : List (GoStr × GoVal)}
    {m : List (GoStr × GoStr)} (h : collectIdEntries fields = some m) :
    ∀ kv ∈ fields, isPrefixL srcMarker kv.1 = true → ∃ s, kv.2 = GoVal.vstr s := by
  induction fields generalizing m with
  | nil => intro kv hm; exact absurd hm (by simp)
  | cons kv0 rest ih =>
    intro kv hm hp
    by_cases hp0 : isPrefixL srcMarker kv0.1 = true
    · simp only [collectIdEntries, hp0, if_true] at h
      split at h
      next s0 hv0 =>
        rcases List.mem_cons.mp hm with heq | hm2
        · exact ⟨s0, heq ▸ hv0⟩
        · rcases hrec : collectIdEntries rest with _ | m2
          · rw [hrec] at h; exact absurd h (by simp)
          · exact ih hrec kv hm2 hp
      next => exact absurd h (by simp)
    · simp only [collectIdEntries, hp0, if_false] at h
      rcases List.mem_cons.mp hm with heq | hm2
      · rw [heq] at hp; exact absurd hp hp0
      · exact ih h kv hm2 hp

/-- A failed precondition makes the id extraction panic. -/
theorem extractIdFieldMapping_none {config : List (GoStr × GoVal)}
    (h : idPrecondHolds config = false) :
    extractIdFieldMapping config = none := by
  rcases halo : alook config (gs "id") with _ | v
  · simp [extractIdFieldMapping, halo]
  · rcases v with _ | s | n | b | xs | fields
    case vnull => simp [extractIdFieldMapping, halo]
    case vstr => simp [extractIdFieldMapping, halo]
    case vint => simp [extractIdFieldMapping, halo]
    case vbool => simp [extractIdFieldMapping, halo]
    case varr => simp [extractIdFieldMapping, halo]
    case vobj =>
      rw [idPrecondHolds, halo] at h
      simp only [extractIdFieldMapping, halo]
      cases hcol : collectIdEntries fields with
      | none => rfl
      | some m =>
        exfalso
        rw [List.all_eq_false] at h
        obtain ⟨kv, hmem, hp⟩ := h
        simp only [Bool.or_eq_true, not_or, Bool.not_eq_true, Bool.not_eq_false] at hp
        obtain ⟨hpre, hnotstr⟩ := hp
        have hpre2 : isPrefixL srcMarker kv.1 = true := by simpa using hpre
        obtain ⟨s, hs⟩ := collectIdEntries_some_strings hcol kv hmem hpre2
        rw [hs] at hnotstr
        simp at hnotstr

/-- A satisfied precondition makes the id extraction succeed. -/
theorem extractIdFieldMapping_isSome {config : List (GoStr × GoVal)}
    (h : idPrecondHolds config = true) :
    (extractIdFieldMapping config).isSome = true := by
  rw [idPrecondHolds] at h
  split at h
  next fields halo =>
    simp only [extractIdFieldMapping, halo]
    apply collectIdEntries_isSome
    intro kv hmem hp
    rw [List.all_eq_true] at h
    have hkv := h kv hmem
    rw [Bool.or_eq_true] at hkv
    rcases hkv with hkv | hkv
    · rw [hp] at hkv; simp at hkv
    · split at hkv
      next s hs => exact ⟨s, hs⟩
      next => simp at hkv
  next => simp at h

/-- C9: `Transform` is panic-free exactly under the precondition that the
mapping has a top-level `id` object whose `src::` entries are all strings;
a mapping accepted by `NewMappingEngine` without an `id` entry (e.g. the
empty object) drives the identity extraction into a failed type assertion
(modelled as the dedicated panic outcome) rather than an error return. -/
theorem claim_C9 :
    (∀ config, idPrecondHolds config = true →
        (extractIdFieldMapping config).isSome = true)
  ∧ (∀ config sources, idPrecondHolds config = false →
        Transform config sources = .error .panicIdMapping)
  ∧ (NewMappingEngine (.vobj []) = some [] ∧ idPrecondHolds [] = false ∧
        Transform [] [] = .error .panicIdMapping) := by
  refine ⟨fun config h => extractIdFieldMapping_isSome h, fun config sources h => ?_,
    rfl, rfl, rfl⟩
  have hnone := extractIdFieldMapping_none h
  simp [Transform, groupHotelsById, hnone, Except.map]

/-- Witness for C9 at concrete mappings: a mapping with a well-formed
`id` leaf extracts successfully, and a mapping without one panics. -/
theorem claim_C9_witness :
    (extractIdFieldMapping
        [(gs "id", GoVal.vobj [(gs "src::a", GoVal.vstr (gs "Id"))])]).isSome = true ∧
    Transform [(gs "name", GoVal.vstr (gs "n"))] [] = .error .panicIdMapping :=
  ⟨claim_C9.1 _ rfl, claim_C9.2.1 _ [] rfl⟩

/-- A successful grouping means every supplier payload was an array and
every supplier had an id-path entry. -/
theorem groupSources_ok_all {idMap : List (GoStr × GoStr)}
    {sources : List (GoStr × GoVal)} {g g2 : Groups}
    (h : groupSources idMap sources g = .ok g2) :
    ∀ np ∈ sources, isArrayVal np.2 = true ∧ (alook idMap np.1).isSome = true := by
  induction sources generalizing g with
  | nil => intro np hm; exact absurd hm (by simp)
  | cons np0 rest ih =>
    intro np hm
    obtain ⟨name, payload⟩ := np0
    cases payload
    case varr items =>
      cases hido : alook idMap name with
      | none =>
        simp only [groupSources, hido] at h
        exact absurd h (by simp)
      | some idField =>
        simp only [groupSources, hido] at h
        rcases List.mem_cons.mp hm with heq | hm2
        · subst heq; exact ⟨rfl, by simp [hido]⟩
        · exact ih h np hm2
    all_goals (simp only [groupSources] at h; exact absurd h (by simp))

/-- With all suppliers carrying an id entry, a non-array payload makes
the grouping fail with a not-an-array error naming a non-array supplier. -/
theorem groupSources_error_notArray {idMap : List (GoStr × GoStr)}
    {sources : List (GoStr × GoVal)} (g : Groups)
    (hall : ∀ np ∈ sources, (alook idMap np.1).isSome = true)
    (hex : ∃ np ∈ sources, isArrayVal np.2 = false) :
    ∃ n p, (n, p) ∈ sources ∧ isArrayVal p = false ∧
      groupSources idMap sources g = .error (.notArray n) := by
  induction sources generalizing g with
  | nil => obtain ⟨np, hm, _⟩ := hex; exact absurd hm (by simp)
  | cons np0 rest ih =>
    obtain ⟨name, payload⟩ := np0
    cases payload
    case varr items =>
      have hid := hall (name, GoVal.varr items) (List.mem_cons_self _ _)
      cases hido : alook idMap name with
      | none => rw [hido] at hid; simp at hid
      | some idField =>
        have hex2 : ∃ np ∈ rest, isArrayVal np.2 = false := by
          obtain ⟨np, hm, hna⟩ := hex
          rcases List.mem_cons.mp hm with heq | hm2
          · rw [heq] at hna; simp [isArrayVal] at hna
          · exact ⟨np, hm2, hna⟩
        obtain ⟨n2, p2, hmem2, hna2, herr⟩ :=
          ih (processSource idField name items g)
            (fun np hm => hall np (List.mem_cons_of_mem _ hm)) hex2
        refine ⟨n2, p2, List.mem_cons_of_mem _ hmem2, hna2, ?_⟩
        simp only [groupSources, hido]
        exact herr
    all_goals exact ⟨name, _, List.mem_cons_self _ _, rfl, rfl⟩

/-- With all payloads arrays, a supplier without an id entry makes the
grouping fail with a no-id-mapping error naming such a supplier. -/
theorem groupSources_error_noId {idMap : List (GoStr × GoStr)}
    {sources : List (GoStr × GoVal)} (g : Groups)
    (hall : ∀ np ∈ sources, isArrayVal np.2 = true)
    (hex : ∃ np ∈ sources, alook idMap np.1 = none) :
    ∃ n, (∃ p, (n, p) ∈ sources) ∧ alook idMap n = none ∧
      groupSources idMap sources g = .error (.noIdMapping n) := by
  induction sources generalizing g with
  | nil => obtain ⟨np, hm, _⟩ := hex; exact absurd hm (by simp)
  | cons np0 rest ih =>
    obtain ⟨name, payload⟩ := np0
    have harr := hall (name, payload) (List.mem_cons_self _ _)
    cases payload
    case varr items =>
      cases hido : alook idMap name with
      | none =>
        refine ⟨name, ⟨GoVal.varr items, List.mem_cons_self _ _⟩, hido, ?_⟩
        simp only [groupSources, hido]
      | some idField =>
        have hex2 : ∃ np ∈ rest, alook idMap np.1 = none := by
          obtain ⟨np, hm, hno⟩ := hex
          rcases List.mem_cons.mp hm with heq | hm2
          · rw [heq] at hno; simp only at hno; rw [hno] at hido; simp at hido
          · exact ⟨np, hm2, hno⟩
        obtain ⟨n2, hp2, hno2, herr⟩ :=
          ih (processSource idField name items g)
            (fun np hm => hall np (List.mem_cons_of_mem _ hm)) hex2
        obtain ⟨p2, hmem2⟩ := hp2
        refine ⟨n2, ⟨p2, List.mem_cons_of_mem _ hmem2⟩, hno2, ?_⟩
        simp only [groupSources, hido]
        exact herr
    all_goals simp [isArrayVal] at harr

/-- The transform fails exactly when the grouping fails, with the same
error. -/
theorem transform_error_iff {config sources : List (GoStr × GoVal)} {e : TErr} :
    Transform config sources = .error e ↔
      groupHotelsById config sources = .error e := by
  unfold Transform
  cases h : groupHotelsById config sources <;> simp [Except.map]

/-- C7: a supplier payload that does not decode as an array is fatal for
the whole transform: no merged output is produced, and (when every
supplier has an id entry, so that no earlier error preempts it) the error
is the not-an-array error naming a non-array supplier. -/
theorem claim_C7 (config sources : List (GoStr × GoVal)) (name : GoStr)
    (payload : GoVal) (hmem : (name, payload) ∈ sources)
    (hna : isArrayVal payload = false) :
    (∃ e, Transform config sources = .error e) ∧
    (∀ idMap, extractIdFieldMapping config = some idMap →
      (∀ np ∈ sources, (alook idMap np.1).isSome = true) →
      ∃ n2 p2, (n2, p2) ∈ sources ∧ isArrayVal p2 = false ∧
        Transform config sources = .error (.notArray n2)) := by
  constructor
  · cases hx : extractIdFieldMapping config with
    | none =>
      exact ⟨.panicIdMapping, by simp [Transform, groupHotelsById, hx, Except.map]⟩
    | some idMap =>
      cases hg : groupSources idMap sources [] with
      | ok g2 =>
        have := (groupSources_ok_all hg (name, payload) hmem).1
        rw [hna] at this
        exact absurd this (by simp)
      | error e =>
        exact ⟨e, by simp [Transform, groupHotelsById, hx, hg, Except.map]⟩
  · intro idMap hx hall
    obtain ⟨n2, p2, hmem2, hna2, herr⟩ :=
      @groupSources_error_notArray idMap sources [] hall
        ⟨(name, payload), hmem, hna⟩
    refine ⟨n2, p2, hmem2, hna2, ?_⟩
    rw [transform_error_iff]
    simp [groupHotelsById, hx, herr]

/-- Witness for C7: a concrete two-supplier input where one payload is a
JSON object rather than an array. -/
theorem claim_C7_witness :
    (∃ e, Transform [(gs "id", GoVal.vobj [(gs "src::a", GoVal.vstr (gs "Id"))])]
        [(gs "a", GoVal.vobj [])] = .error e) ∧
    (∀ idMap,
      extractIdFieldMapping [(gs "id", GoVal.vobj [(gs "src::a", GoVal.vstr (gs "Id"))])] =
        some idMap →
      (∀ np ∈ [(gs "a", GoVal.vobj ([] : List (GoStr × GoVal)))],
        (alook idMap np.1).isSome = true) →
      ∃ n2 p2, (n2, p2) ∈ [(gs "a", GoVal.vobj ([] : List (GoStr × GoVal)))] ∧
        isArrayVal p2 = false ∧
        Transform [(gs "id", GoVal.vobj [(gs "src::a", GoVal.vstr (gs "Id"))])]
          [(gs "a", GoVal.vobj [])] = .error (.notArray n2)) :=
  claim_C7 _ _ (gs "a") (GoVal.vobj []) (List.mem_cons_self _ _) rfl

/-- C10: a supplier name with no `src::` entry under the `id` leaf is
fatal for the whole transform: no output is produced at all, and (when
every payload is an array, so that no array error preempts it) the error
is the no-id-mapping error naming such a supplier. -/
theorem claim_C10 (config sources : List (GoStr × GoVal)) (name : GoStr)
    (payload : GoVal) (idMap : List (GoStr × GoStr))
    (hx : extractIdFieldMapping config = some idMap)
    (hmem : (name, payload) ∈ sources) (hno : alook idMap name = none) :
    (∃ e, Transform config sources = .error e) ∧
    ((∀ np ∈ sources, isArrayVal np.2 = true) →
      ∃ n2, (∃ p2, (n2, p2) ∈ sources) ∧ alook idMap n2 = none ∧
        Transform config sources = .error (.noIdMapping n2)) := by
  constructor
  · cases hg : groupSources idMap sources [] with
    | ok g2 =>
      have := (groupSources_ok_all hg (name, payload) hmem).2
      rw [hno] at this
      exact absurd this (by simp)
    | error e =>
      exact ⟨e, by simp [Transform, groupHotelsById, hx, hg, Except.map]⟩
  · intro hall
    obtain ⟨n2, hp2, hno2, herr⟩ :=
      @groupSources_error_noId idMap sources [] hall ⟨(name, payload), hmem, hno⟩
    refine ⟨n2, hp2, hno2, ?_⟩
    rw [transform_error_iff]
    simp [groupHotelsById, hx, herr]

/-- Witness for C10: a concrete input with a supplier `b` that has no
`src::b` entry under the `id` leaf. -/
theorem claim_C10_witness :
    (∃ e, Transform [(gs "id", GoVal.vobj [(gs "src::a", GoVal.vstr (gs "Id"))])]
        [(gs "b", GoVal.varr [])] = .error e) ∧
    ((∀ np ∈ [(gs "b", GoVal.varr ([] : List GoVal))], isArrayVal np.2 = true) →
      ∃ n2, (∃ p2, (n2, p2) ∈ [(gs "b", GoVal.varr ([] : List GoVal))]) ∧
        alook [(gs "a", gs "Id")] n2 = none ∧
        Transform [(gs "id", GoVal.vobj [(gs "src::a", GoVal.vstr (gs "Id"))])]
          [(gs "b", GoVal.varr [])] = .error (.noIdMapping n2)) :=
  claim_C10 _ _ (gs "b") (GoVal.varr []) [(gs "a", gs "Id")] rfl
    (List.mem_cons_self _ _) rfl

/-- C3 is a code bug: the loop of `normalizeAmenities` breaks after the
first value in iteration order whether or not that value is a non-empty
array, so the arrays of the other suppliers are merged only when the
first-visited value happens to be a non-empty array.  At the value map
that binds supplier `a` to the string `x` and supplier `b` to the array
containing `wifi` (a canonical vocabulary member), the iteration order
that visits `a` first yields the empty array, while the other order
yields `wifi` — the merge-all reading mandated by the spec. -/
theorem claim_C3_bug :
    normalizeAmenities
        [(gs "src::a", GoVal.vstr (gs "x")),
         (gs "src::b", GoVal.varr [GoVal.vstr (gs "wifi")])] generalAmenity =
      GoVal.varr [] ∧
    alook generalAmenity (gs "wifi") = some (gs "wifi") ∧
    normalizeAmenities
        [(gs "src::b", GoVal.varr [GoVal.vstr (gs "wifi")]),
         (gs "src::a", GoVal.vstr (gs "x"))] generalAmenity =
      GoVal.varr [GoVal.vstr (gs "wifi")] := by
  refine ⟨rfl, ?_, rfl⟩
  decide

/-- C8 as stated is false of the handler: the query parameters read by
the code are `id` and `destination_id`, so a request supplying both `ids`
and `destination_ids` (the spec's names) is answered with the full
catalog, not HTTP 400. -/
theorem claim_C8_cex :
    handleQueryHotels [⟨gs "h1", 1⟩]
        [(gs "ids", gs "h1"), (gs "destination_ids", gs "2")] =
      HResp.ok [⟨gs "h1", 1⟩] ∧
    ([⟨gs "h1", 1⟩] : List Hotel) ≠ [] := by
  exact ⟨rfl, by simp⟩

/-- C8 amended: for the parameters the handler actually reads, `id` and
`destination_id`, supplying both yields HTTP 400 with a human-readable
message and no catalog records, and supplying neither returns the full
catalog exactly as `handleGetAllHotels` does. -/
theorem claim_C8_amended (store : List Hotel) (query : List (GoStr × GoStr)) :
    (queryGet query (gs "id") ≠ [] → queryGet query (gs "destination_id") ≠ [] →
      handleQueryHotels store query =
        .badRequest (gs "Only one query parameter (id or destination_id) can be provided at a time")) ∧
    (queryGet query (gs "id") = [] → queryGet query (gs "destination_id") = [] →
      handleQueryHotels store query = handleGetAllHotels store ∧
      handleQueryHotels store query = .ok store) := by
  constructor
  · intro h1 h2
    simp [handleQueryHotels, h1, h2]
  · intro h1 h2
    constructor <;> simp [handleQueryHotels, h1, h2, handleGetAllHotels]

/-- Witness for the amended C8 at concrete requests: both parameters
supplied, and no parameters supplied. -/
theorem claim_C8_amended_witness :
    handleQueryHotels [⟨gs "h1", 1⟩] [(gs "id", gs "h1"), (gs "destination_id", gs "2")] =
      .badRequest (gs "Only one query parameter (id or destination_id) can be provided at a time") ∧
    handleQueryHotels [⟨gs "h1", 1⟩] [] = .ok [⟨gs "h1", 1⟩] :=
  ⟨(claim_C8_amended [⟨gs "h1", 1⟩] [(gs "id", gs "h1"), (gs "destination_id", gs "2")]).1
      (by decide) (by decide),
   ((claim_C8_amended [⟨gs "h1", 1⟩] []).2 rfl rfl).2⟩

/-- Every rune is at least one byte wide. -/
theorem utf8Width_pos (c : Char) : 0 < utf8Width c := by
  unfold utf8Width
  split
  · omega
  split
  · omega
  split <;> omega

/-- A non-empty string has positive byte length. -/
theorem goLen_pos {s : GoStr} (h : s ≠ []) : 0 < goLen s := by
  cases s with
  | nil => exact absurd rfl h
  | cons c rest =>
    have := utf8Width_pos c
    simp only [goLen, List.map_cons, List.sum_cons]
    omega

/-- The accumulating loop of the string policy never shrinks the byte
length of the best candidate so far. -/
theorem selBestAux_ge (l : List (GoStr × GoVal)) (acc : GoStr) :
    goLen acc ≤ goLen (selBestAux l acc) := by
  induction l generalizing acc with
  | nil => simp [selBestAux]
  | cons kv rest ih =>
    obtain ⟨k, v⟩ := kv
    cases v
    case vstr s =>
      simp only [selBestAux]
      split
      next h => exact le_trans (le_of_lt h.2) (ih _)
      next h => exact ih acc
    all_goals simpa only [selBestAux] using ih acc

/-- The candidates contributed by a non-string value are those of the
tail. -/
theorem nonEmptyTrimmed_cons_none {k : GoStr} {v : GoVal}
    (h : trimmedStringCand v = none) (rest : List (GoStr × GoVal)) :
    nonEmptyTrimmed ((k, v) :: rest) = nonEmptyTrimmed rest := by
  simp [nonEmptyTrimmed, List.filterMap_cons, h]

/-- The candidates contributed by a valid string value start with its
trimmed form. -/
theorem nonEmptyTrimmed_cons_some {k : GoStr} {v : GoVal} {t : GoStr}
    (h : trimmedStringCand v = some t) (rest : List (GoStr × GoVal)) :
    nonEmptyTrimmed ((k, v) :: rest) = t :: nonEmptyTrimmed rest := by
  simp [nonEmptyTrimmed, List.filterMap_cons, h]

/-- The accumulating loop dominates every candidate in byte length. -/
theorem selBestAux_max (l : List (GoStr × GoVal)) (acc : GoStr) :
    ∀ c ∈ nonEmptyTrimmed l, goLen c ≤ goLen (selBestAux l acc) := by
  induction l generalizing acc with
  | nil => intro c hc; exact absurd hc (by simp [nonEmptyTrimmed])
  | cons kv rest ih =>
    obtain ⟨k, v⟩ := kv
    intro c hc
    cases v
    case vstr s =>
      by_cases hne : goTrimSpace s = []
      · rw [nonEmptyTrimmed_cons_none (by simp [trimmedStringCand, hne]) rest] at hc
        simp only [selBestAux]
        split
        next h => exact absurd hne h.1
        next => exact ih acc c hc
      · rw [@nonEmptyTrimmed_cons_some k (GoVal.vstr s) (goTrimSpace s)
          (by simp [trimmedStringCand, hne]) rest] at hc
        simp only [selBestAux]
        rcases List.mem_cons.mp hc with heq | hc2
        · subst heq
          split
          next h => exact selBestAux_ge rest _
          next h =>
            have hle : goLen (goTrimSpace s) ≤ goLen acc := by
              by_contra hlt
              push_neg at hlt
              exact h ⟨hne, hlt⟩
            exact le_trans hle (selBestAux_ge rest acc)
        · split
          next => exact ih _ c hc2
          next => exact ih acc c hc2
    all_goals
      rw [nonEmptyTrimmed_cons_none (by simp [trimmedStringCand]) rest] at hc
    all_goals simpa only [selBestAux] using ih acc c hc

/-- The accumulating loop returns its accumulator or one of the
candidates. -/
theorem selBestAux_mem (l : List (GoStr × GoVal)) (acc : GoStr) :
    selBestAux l acc = acc ∨ selBestAux l acc ∈ nonEmptyTrimmed l := by
  induction l generalizing acc with
  | nil => exact Or.inl rfl
  | cons kv rest ih =>
    obtain ⟨k, v⟩ := kv
    cases v
    case vstr s =>
      by_cases hne : goTrimSpace s = []
      · rw [nonEmptyTrimmed_cons_none (by simp [trimmedStringCand, hne]) rest]
        simp only [selBestAux]
        split
        next h => exact absurd hne h.1
        next => exact ih acc
      · rw [@nonEmptyTrimmed_cons_some k (GoVal.vstr s) (goTrimSpace s)
          (by simp [trimmedStringCand, hne]) rest]
        simp only [selBestAux]
        split
        next h =>
          rcases ih (goTrimSpace s) with heq | hm
          · rw [heq]; exact Or.inr (List.mem_cons_self _ _)
          · exact Or.inr (List.mem_cons_of_mem _ hm)
        next =>
          rcases ih acc with heq | hm
          · exact Or.inl heq
          · exact Or.inr (List.mem_cons_of_mem _ hm)
    all_goals
      rw [nonEmptyTrimmed_cons_none (by simp [trimmedStringCand]) rest]
    all_goals simpa only [selBestAux] using ih acc

/-- With no non-nil value the policy loop yields nil. -/
theorem selectBestValueLoop_none (all l : List (GoStr × GoVal))
    (h : (l.map Prod.snd).find? (fun v => !v.isNull) = none) :
    selectBestValueLoop all l = .vnull := by
  induction l with
  | nil => rfl
  | cons kv rest ih =>
    obtain ⟨k, v⟩ := kv
    cases hn : v.isNull with
    | true =>
      cases v <;> simp [GoVal.isNull] at hn
      have hred : selectBestValueLoop all ((k, GoVal.vnull) :: rest) =
          selectBestValueLoop all rest := rfl
      rw [hred]
      exact ih h
    | false =>
      rw [List.map_cons, List.find?_cons_of_pos _ (by simp [hn])] at h
      exact absurd h (by simp)

/-- When the first non-nil value is not a usable string, the policy
returns that value unchanged. -/
theorem selectBestValueLoop_first (all l : List (GoStr × GoVal)) (v0 : GoVal)
    (h : (l.map Prod.snd).find? (fun v => !v.isNull) = some v0)
    (hnc : trimmedStringCand v0 = none) :
    selectBestValueLoop all l = v0 := by
  induction l with
  | nil => exact absurd h (by simp)
  | cons kv rest ih =>
    obtain ⟨k, v⟩ := kv
    cases hn : v.isNull with
    | true =>
      cases v <;> simp [GoVal.isNull] at hn
      have hred : selectBestValueLoop all ((k, GoVal.vnull) :: rest) =
          selectBestValueLoop all rest := rfl
      rw [hred]
      exact ih h
    | false =>
      rw [List.map_cons, List.find?_cons_of_pos _ (by simp [hn])] at h
      have hv : v = v0 := by simpa using h
      subst hv
      cases v
      case vnull => simp [GoVal.isNull] at hn
      case vstr s =>
        simp only [trimmedStringCand] at hnc
        split at hnc
        next ht => exact absurd hnc (by simp)
        next ht =>
          push_neg at ht
          have hred : selectBestValueLoop all ((k, GoVal.vstr s) :: rest) =
              if goTrimSpace s ≠ [] then .vstr (selectStringBestValue all)
              else .vstr s := rfl
          rw [hred, if_neg (by simp [ht])]
      all_goals rfl

/-- When the first non-nil value is a string that is non-empty after
trimming, the policy returns the best string over the whole value map. -/
theorem selectBestValueLoop_str (all l : List (GoStr × GoVal)) (s : GoStr)
    (h : (l.map Prod.snd).find? (fun v => !v.isNull) = some (.vstr s))
    (hne : goTrimSpace s ≠ []) :
    selectBestValueLoop all l = .vstr (selectStringBestValue all) := by
  induction l with
  | nil => exact absurd h (by simp)
  | cons kv rest ih =>
    obtain ⟨k, v⟩ := kv
    cases hn : v.isNull with
    | true =>
      cases v <;> simp [GoVal.isNull] at hn
      have hred : selectBestValueLoop all ((k, GoVal.vnull) :: rest) =
          selectBestValueLoop all rest := rfl
      rw [hred]
      exact ih h
    | false =>
      rw [List.map_cons, List.find?_cons_of_pos _ (by simp [hn])] at h
      have hv : v = .vstr s := by simpa using h
      subst hv
      have hred : selectBestValueLoop all ((k, GoVal.vstr s) :: rest) =
          if goTrimSpace s ≠ [] then .vstr (selectStringBestValue all)
          else .vstr s := rfl
      rw [hred, if_pos hne]

/-- C2 as stated is false of the code in two ways.  First, when the value
visited first is not a string (here the integer 42), the policy returns
it even though another supplier contributed the non-empty string `hello`.
Second, `selectStringBestValue` compares Go byte lengths, not rune
counts: between the two-rune, four-byte string of two e-acute characters
and the three-rune, three-byte string `abc`, it picks the former, which
has strictly fewer runes. -/
theorem claim_C2_cex :
    selectBestValue [(gs "a", GoVal.vint 42), (gs "b", GoVal.vstr (gs "hello"))] =
      GoVal.vint 42 ∧
    (gs "hello") ∈ nonEmptyTrimmed
      [(gs "a", GoVal.vint 42), (gs "b", GoVal.vstr (gs "hello"))] ∧
    selectBestValue [(gs "a", GoVal.vstr (gs "éé")), (gs "b", GoVal.vstr (gs "abc"))] =
      GoVal.vstr (gs "éé") ∧
    (gs "éé").length < (gs "abc").length ∧
    (gs "abc") ∈ nonEmptyTrimmed
      [(gs "a", GoVal.vstr (gs "éé")), (gs "b", GoVal.vstr (gs "abc"))] := by
  exact ⟨rfl, by decide, rfl, by decide, by decide⟩

/-- C2 amended: the default policy sniffs the type of the first non-nil
value in iteration order.  Only when that value is a string that is
non-empty after trimming does it return the longest candidate — longest
by Go byte length, the earliest maximal candidate winning ties; the
result is then itself one of the non-empty trimmed candidates and
dominates all of them.  Otherwise the first non-nil value is returned
unchanged (even if a later value is a non-empty string), and with no
non-nil value the result is null. -/
theorem claim_C2_amended (values : List (GoStr × GoVal)) :
    (firstNonNull values = none → selectBestValue values = .vnull) ∧
    (∀ v, firstNonNull values = some v → trimmedStringCand v = none →
      selectBestValue values = v) ∧
    (∀ s, firstNonNull values = some (.vstr s) → goTrimSpace s ≠ [] →
      selectBestValue values = .vstr (selectStringBestValue values) ∧
      selectStringBestValue values ∈ nonEmptyTrimmed values ∧
      ∀ c ∈ nonEmptyTrimmed values, goLen c ≤ goLen (selectStringBestValue values)) := by
  refine ⟨fun h => selectBestValueLoop_none values values h,
    fun v h hnc => selectBestValueLoop_first values values v h hnc,
    fun s h hne => ⟨selectBestValueLoop_str values values s h hne, ?_, ?_⟩⟩
  · have hmem : GoVal.vstr s ∈ values.map Prod.snd := List.mem_of_find?_eq_some h
    obtain ⟨kv, hkv, hsnd⟩ := List.mem_map.mp hmem
    have hcand : goTrimSpace s ∈ nonEmptyTrimmed values := by
      refine List.mem_filterMap.mpr ⟨kv, hkv, ?_⟩
      rw [hsnd]
      simp [trimmedStringCand, hne]
    rcases selBestAux_mem values [] with heq | hm
    · exfalso
      have h1 := selBestAux_max values [] (goTrimSpace s) hcand
      rw [heq] at h1
      have h2 := goLen_pos hne
      have h3 : goLen ([] : GoStr) = 0 := rfl
      omega
    · exact hm
  · exact selBestAux_max values []

/-- Witness for the amended C2: a value map whose first value is the
string ` hi ` (trimming to `hi`) and whose second is the shorter `x`. -/
theorem claim_C2_amended_witness :
    selectBestValue [(gs "a", GoVal.vstr (gs " hi ")), (gs "b", GoVal.vstr (gs "x"))] =
      .vstr (selectStringBestValue
        [(gs "a", GoVal.vstr (gs " hi ")), (gs "b", GoVal.vstr (gs "x"))]) ∧
    selectStringBestValue [(gs "a", GoVal.vstr (gs " hi ")), (gs "b", GoVal.vstr (gs "x"))] ∈
      nonEmptyTrimmed [(gs "a", GoVal.vstr (gs " hi ")), (gs "b", GoVal.vstr (gs "x"))] ∧
    ∀ c ∈ nonEmptyTrimmed [(gs "a", GoVal.vstr (gs " hi ")), (gs "b", GoVal.vstr (gs "x"))],
      goLen c ≤ goLen (selectStringBestValue
        [(gs "a", GoVal.vstr (gs " hi ")), (gs "b", GoVal.vstr (gs "x"))]) :=
  (claim_C2_amended _).2.2 (gs " hi ") rfl (by decide)

/-- Inserting a record under an identity appends that identity to the
group keys exactly when it is new. -/
theorem putGroup_keys (g : Groups) (id srcName : GoStr) (item : GoVal) :
    groupKeys (putGroup g id srcName item) =
      if id ∈ groupKeys g then groupKeys g else groupKeys g ++ [id] := by
  induction g with
  | nil => simp [putGroup, groupKeys]
  | cons e rest ih =>
    obtain ⟨gid, m⟩ := e
    by_cases hg : gid = id
    · subst hg
      simp [putGroup, groupKeys]
    · have hone : groupKeys ((gid, m) :: putGroup rest id srcName item) =
          gid :: groupKeys (putGroup rest id srcName item) := rfl
      have htwo : putGroup ((gid, m) :: rest) id srcName item =
          (gid, m) :: putGroup rest id srcName item := by
        simp [putGroup, hg]
      rw [htwo, hone, ih]
      have hmm : (id ∈ groupKeys ((gid, m) :: rest)) ↔ id ∈ groupKeys rest := by
        simp [groupKeys, List.mem_cons]
        intro heq
        exact absurd heq.symm hg
      by_cases hmem : id ∈ groupKeys rest
      · rw [if_pos hmem, if_pos (hmm.mpr hmem)]
        rfl
      · rw [if_neg hmem, if_neg (fun hx => hmem (hmm.mp hx))]
        rfl

/-- Processing one supplier payload folds its identity stream into the
group keys with first-occurrence de-duplication. -/
theorem processSource_keys (idField srcName : GoStr) (items : List GoVal)
    (g : Groups) :
    groupKeys (processSource idField srcName items g) =
      dedupInto (groupKeys g) (sourceIds idField items) := by
  induction items generalizing g with
  | nil => rfl
  | cons it rest ih =>
    cases hid : idOfItem idField it with
    | none =>
      have h1 : processSource idField srcName (it :: rest) g =
          processSource idField srcName rest g := by
        simp [processSource, List.foldl_cons, hid]
      have h2 : sourceIds idField (it :: rest) = sourceIds idField rest := by
        simp [sourceIds, List.filterMap_cons, hid]
      rw [h1, h2, ih]
    | some idStr =>
      have h1 : processSource idField srcName (it :: rest) g =
          processSource idField srcName rest (putGroup g idStr srcName it) := by
        simp [processSource, List.foldl_cons, hid]
      have h2 : sourceIds idField (it :: rest) = idStr :: sourceIds idField rest := by
        simp [sourceIds, List.filterMap_cons, hid]
      rw [h1, h2, ih, dedupInto, putGroup_keys]
      by_cases hmem : idStr ∈ groupKeys g
      · rw [if_pos hmem, if_pos hmem]
      · rw [if_neg hmem, if_neg hmem]

/-- De-duplicating a concatenated stream is de-duplicating its parts in
turn. -/
theorem dedupInto_append (acc : List GoStr) (l1 l2 : List GoStr) :
    dedupInto acc (l1 ++ l2) = dedupInto (dedupInto acc l1) l2 := by
  induction l1 generalizing acc with
  | nil => rfl
  | cons i rest ih =>
    have h0 : dedupInto acc ((i :: rest) ++ l2) =
        if i ∈ acc then dedupInto acc (rest ++ l2)
        else dedupInto (acc ++ [i]) (rest ++ l2) := rfl
    have h1 : dedupInto acc (i :: rest) =
        if i ∈ acc then dedupInto acc rest else dedupInto (acc ++ [i]) rest := rfl
    rw [h0, h1]
    by_cases hmem : i ∈ acc
    · rw [if_pos hmem, if_pos hmem, ih]
    · rw [if_neg hmem, if_neg hmem, ih]

/-- Membership in the de-duplicated stream. -/
theorem dedupInto_mem (acc l : List GoStr) (x : GoStr) :
    x ∈ dedupInto acc l ↔ x ∈ acc ∨ x ∈ l := by
  induction l generalizing acc with
  | nil => simp [dedupInto]
  | cons i rest ih =>
    simp only [dedupInto]
    by_cases hmem : i ∈ acc
    · rw [if_pos hmem, ih]
      simp only [List.mem_cons]
      constructor
      · rintro (hx | hx)
        · exact Or.inl hx
        · exact Or.inr (Or.inr hx)
      · rintro (hx | hx | hx)
        · exact Or.inl hx
        · exact Or.inl (hx ▸ hmem)
        · exact Or.inr hx
    · rw [if_neg hmem, ih]
      simp only [List.mem_append, List.mem_singleton, List.mem_cons]
      tauto

/-- The de-duplicated stream has no duplicate identities. -/
theorem dedupInto_nodup (acc l : List GoStr) (ha : acc.Nodup) :
    (dedupInto acc l).Nodup := by
  induction l generalizing acc with
  | nil => exact ha
  | cons i rest ih =>
    simp only [dedupInto]
    by_cases hmem : i ∈ acc
    · rw [if_pos hmem]
      exact ih acc ha
    · rw [if_neg hmem]
      refine ih _ ?_
      simp [List.nodup_append, ha, hmem]

/-- Keys produced by a successful grouping: first-occurrence
de-duplication of the whole identity stream. -/
theorem groupSources_keys {idMap : List (GoStr × GoStr)}
    {sources : List (GoStr × GoVal)} {g g2 : Groups}
    (h : groupSources idMap sources g = .ok g2) :
    groupKeys g2 = dedupInto (groupKeys g) (idStream idMap sources) := by
  induction sources generalizing g with
  | nil =>
    simp only [groupSources] at h
    cases h
    rfl
  | cons np rest ih =>
    obtain ⟨name, payload⟩ := np
    cases payload
    case varr items =>
      cases hido : alook idMap name with
      | none =>
        simp only [groupSources, hido] at h
        exact absurd h (by simp)
      | some idField =>
        simp only [groupSources, hido] at h
        have hstream : idStream idMap ((name, GoVal.varr items) :: rest) =
            sourceIds idField items ++ idStream idMap rest := by
          simp [idStream, List.flatMap_cons, hido]
        rw [ih h, hstream, dedupInto_append, processSource_keys]
    all_goals (simp only [groupSources] at h; exact absurd h (by simp))

/-- A successful transform comes from a successful grouping, one output
record per group. -/
theorem transform_ok {config sources : List (GoStr × GoVal)}
    {results : List (List (GoStr × GoVal))}
    (h : Transform config sources = .ok results) :
    ∃ groups, groupHotelsById config sources = .ok groups ∧
      results = groups.map (fun g => processGroup config g.2) := by
  unfold Transform at h
  cases hg : groupHotelsById config sources with
  | ok groups =>
    rw [hg] at h
    simp [Except.map] at h
    exact ⟨groups, rfl, h.symm⟩
  | error e =>
    rw [hg] at h
    simp [Except.map] at h

/-- C1: on a successful run, the output has exactly one record per
distinct identity: its length is the number of distinct non-empty
identities appearing in the supplier payloads (absent or empty identities
having been skipped), and that distinct list is duplicate-free and covers
exactly the identities of the stream. -/
theorem claim_C1 (config sources : List (GoStr × GoVal))
    (idMap : List (GoStr × GoStr)) (results : List (List (GoStr × GoVal)))
    (hmap : extractIdFieldMapping config = some idMap)
    (hok : Transform config sources = .ok results) :
    results.length = (dedupInto [] (idStream idMap sources)).length ∧
    (dedupInto [] (idStream idMap sources)).Nodup ∧
    (∀ i, i ∈ dedupInto [] (idStream idMap sources) ↔ i ∈ idStream idMap sources) := by
  obtain ⟨groups, hg, hres⟩ := transform_ok hok
  simp only [groupHotelsById, hmap] at hg
  have hkeys := groupSources_keys hg
  refine ⟨?_, dedupInto_nodup _ _ (by simp), ?_⟩
  · rw [hres, List.length_map]
    have hlen : groups.length = (groupKeys groups).length := by
      simp [groupKeys]
    rw [hlen, hkeys]
    rfl
  · intro i
    rw [dedupInto_mem]
    simp

/-- Witness for C1: one supplier with three records, two distinct
identities (the duplicate identity keeps one group), so the output has
exactly two records. -/
theorem claim_C1_witness :
    ([[(gs "id", GoVal.vstr (gs "1"))], [(gs "id", GoVal.vstr (gs "2"))]] :
        List (List (GoStr × GoVal))).length =
      (dedupInto []
        (idStream [(gs "a", gs "Id")]
          [(gs "a",
            GoVal.varr
              [GoVal.vobj [(gs "Id", GoVal.vstr (gs "1"))],
               GoVal.vobj [(gs "Id", GoVal.vstr (gs "1"))],
               GoVal.vobj [(gs "Id", GoVal.vstr (gs "2"))]])])).length :=
  (claim_C1
    [(gs "id", GoVal.vobj [(gs "src::a", GoVal.vstr (gs "Id"))])]
    [(gs "a",
      GoVal.varr
        [GoVal.vobj [(gs "Id", GoVal.vstr (gs "1"))],
         GoVal.vobj [(gs "Id", GoVal.vstr (gs "1"))],
         GoVal.vobj [(gs "Id", GoVal.vstr (gs "2"))]])]
    [(gs "a", gs "Id")]
    [[(gs "id", GoVal.vstr (gs "1"))], [(gs "id", GoVal.vstr (gs "2"))]]
    rfl rfl).1

/-- C6 as stated is false of the code: the merged output is not a
function of the input maps alone, because Go map iteration order leaks
into leaf values.  The two mapping documents below are the same JSON
object (their `name` leaf entries are a permutation), yet with the same
supplier input one run merges `name` to the integer 42 and the other to
the string `hello`, already differing on the single (hence sorted)
output record. -/
theorem claim_C6_cex :
    Transform
        [(gs "id", GoVal.vobj [(gs "src::a", GoVal.vstr (gs "Id")),
                               (gs "src::b", GoVal.vstr (gs "id"))]),
         (gs "name", GoVal.vobj [(gs "src::a", GoVal.vstr (gs "Name")),
                                 (gs "src::b", GoVal.vstr (gs "name"))])]
        [(gs "a", GoVal.varr [GoVal.vobj [(gs "Id", GoVal.vstr (gs "1")),
                                          (gs "Name", GoVal.vint 42)]]),
         (gs "b", GoVal.varr [GoVal.vobj [(gs "id", GoVal.vstr (gs "1")),
                                          (gs "name", GoVal.vstr (gs "hello"))]])] =
      .ok [[(gs "id", GoVal.vstr (gs "1")), (gs "name", GoVal.vint 42)]] ∧
    Transform
        [(gs "id", GoVal.vobj [(gs "src::a", GoVal.vstr (gs "Id")),
                               (gs "src::b", GoVal.vstr (gs "id"))]),
         (gs "name", GoVal.vobj [(gs "src::b", GoVal.vstr (gs "name")),
                                 (gs "src::a", GoVal.vstr (gs "Name"))])]
        [(gs "a", GoVal.varr [GoVal.vobj [(gs "Id", GoVal.vstr (gs "1")),
                                          (gs "Name", GoVal.vint 42)]]),
         (gs "b", GoVal.varr [GoVal.vobj [(gs "id", GoVal.vstr (gs "1")),
                                          (gs "name", GoVal.vstr (gs "hello"))]])] =
      .ok [[(gs "id", GoVal.vstr (gs "1")), (gs "name", GoVal.vstr (gs "hello"))]] ∧
    List.Perm
      [(gs "src::a", GoVal.vstr (gs "Name")), (gs "src::b", GoVal.vstr (gs "name"))]
      [(gs "src::b", GoVal.vstr (gs "name")), (gs "src::a", GoVal.vstr (gs "Name"))] ∧
    ([(gs "id", GoVal.vstr (gs "1")), (gs "name", GoVal.vint 42)] :
        List (GoStr × GoVal)) ≠
      [(gs "id", GoVal.vstr (gs "1")), (gs "name", GoVal.vstr (gs "hello"))] := by
  refine ⟨rfl, rfl, List.Perm.swap _ _ _, ?_⟩
  intro h
  have h2 := congrArg (fun r => alook r (gs "name")) h
  have h3 : alook [(gs "id", GoVal.vstr (gs "1")), (gs "name", GoVal.vint 42)]
      (gs "name") = some (GoVal.vint 42) := rfl
  have h4 : alook [(gs "id", GoVal.vstr (gs "1")),
      (gs "name", GoVal.vstr (gs "hello"))] (gs "name") =
      some (GoVal.vstr (gs "hello")) := rfl
  have h5 : some (GoVal.vint 42) = some (GoVal.vstr (gs "hello")) :=
    h3.symm.trans (h2.trans h4)
  exact GoVal.noConfusion (Option.some.inj h5)

/-- C6 amended: what survives across runs is the identity structure, not
the bytes.  For any two iteration orders of the same supplier map (a
permutation) on which the transform succeeds, the two runs produce the
same set of group identities and the same number of output records (one
per identity); the full byte-identical equality claimed by C6 — leaf
values and array element orders included — holds only when the
unspecified map iteration orders of the two runs coincide. -/
theorem claim_C6_amended (config s1 s2 : List (GoStr × GoVal))
    (g1 g2 : Groups) (r1 r2 : List (List (GoStr × GoVal)))
    (hperm : s1.Perm s2)
    (hg1 : groupHotelsById config s1 = .ok g1)
    (hg2 : groupHotelsById config s2 = .ok g2)
    (hr1 : Transform config s1 = .ok r1)
    (hr2 : Transform config s2 = .ok r2) :
    (∀ i, i ∈ groupKeys g1 ↔ i ∈ groupKeys g2) ∧ r1.length = r2.length := by
  cases hx : extractIdFieldMapping config with
  | none => simp only [groupHotelsById, hx] at hg1; exact absurd hg1 (by simp)
  | some idMap =>
    simp only [groupHotelsById, hx] at hg1 hg2
    have hk1 := groupSources_keys hg1
    have hk2 := groupSources_keys hg2
    have hsp : (idStream idMap s1).Perm (idStream idMap s2) :=
      List.Perm.flatMap_right _ hperm
    have hmem : ∀ i, i ∈ groupKeys g1 ↔ i ∈ groupKeys g2 := by
      intro i
      rw [hk1, hk2, dedupInto_mem, dedupInto_mem]
      constructor
      · rintro (hx2 | hx2)
        · exact absurd hx2 (by simp [groupKeys])
        · exact Or.inr (hsp.mem_iff.mp hx2)
      · rintro (hx2 | hx2)
        · exact absurd hx2 (by simp [groupKeys])
        · exact Or.inr (hsp.mem_iff.mpr hx2)
    refine ⟨hmem, ?_⟩
    obtain ⟨groups1, hgg1, hres1⟩ := transform_ok hr1
    obtain ⟨groups2, hgg2, hres2⟩ := transform_ok hr2
    simp only [groupHotelsById, hx] at hgg1 hgg2
    rw [hg1] at hgg1
    rw [hg2] at hgg2
    have e1 : g1 = groups1 := Except.ok.inj hgg1
    have e2 : g2 = groups2 := Except.ok.inj hgg2
    rw [hres1, hres2, ← e1, ← e2, List.length_map, List.length_map]
    have hn1 : (groupKeys g1).Nodup := by
      rw [hk1]; exact dedupInto_nodup _ _ (by simp [groupKeys])
    have hn2 : (groupKeys g2).Nodup := by
      rw [hk2]; exact dedupInto_nodup _ _ (by simp [groupKeys])
    have hkperm : (groupKeys g1).Perm (groupKeys g2) :=
      (List.perm_ext_iff_of_nodup hn1 hn2).mpr hmem
    have hlen : (groupKeys g1).length = (groupKeys g2).length :=
      hkperm.length_eq
    simpa [groupKeys] using hlen

/-- Witness for the amended C6: the same two suppliers in the two
possible iteration orders; both runs yield two records with the same
identity set. -/
theorem claim_C6_amended_witness :
    (∀ i, i ∈ groupKeys
        [(gs "1", [(gs "a", GoVal.vobj [(gs "Id", GoVal.vstr (gs "1"))])]),
         (gs "2", [(gs "b", GoVal.vobj [(gs "id", GoVal.vstr (gs "2"))])])] ↔
      i ∈ groupKeys
        [(gs "2", [(gs "b", GoVal.vobj [(gs "id", GoVal.vstr (gs "2"))])]),
         (gs "1", [(gs "a", GoVal.vobj [(gs "Id", GoVal.vstr (gs "1"))])])]) ∧
    ([[(gs "id", GoVal.vstr (gs "1"))], [(gs "id", GoVal.vstr (gs "2"))]] :
        List (List (GoStr × GoVal))).length =
      ([[(gs "id", GoVal.vstr (gs "2"))], [(gs "id", GoVal.vstr (gs "1"))]] :
        List (List (GoStr × GoVal))).length :=
  claim_C6_amended
    [(gs "id", GoVal.vobj [(gs "src::a", GoVal.vstr (gs "Id")),
                           (gs "src::b", GoVal.vstr (gs "id"))])]
    [(gs "a", GoVal.varr [GoVal.vobj [(gs "Id", GoVal.vstr (gs "1"))]]),
     (gs "b", GoVal.varr [GoVal.vobj [(gs "id", GoVal.vstr (gs "2"))]])]
    [(gs "b", GoVal.varr [GoVal.vobj [(gs "id", GoVal.vstr (gs "2"))]]),
     (gs "a", GoVal.varr [GoVal.vobj [(gs "Id", GoVal.vstr (gs "1"))]])]
    [(gs "1", [(gs "a", GoVal.vobj [(gs "Id", GoVal.vstr (gs "1"))])]),
     (gs "2", [(gs "b", GoVal.vobj [(gs "id", GoVal.vstr (gs "2"))])])]
    [(gs "2", [(gs "b", GoVal.vobj [(gs "id", GoVal.vstr (gs "2"))])]),
     (gs "1", [(gs "a", GoVal.vobj [(gs "Id", GoVal.vstr (gs "1"))])])]
    [[(gs "id", GoVal.vstr (gs "1"))], [(gs "id", GoVal.vstr (gs "2"))]]
    [[(gs "id", GoVal.vstr (gs "2"))], [(gs "id", GoVal.vstr (gs "1"))]]
    (List.Perm.swap _ _ _) rfl rfl rfl rfl

/-- Lookup after inserting the looked-up key. -/
theorem alook_aput_self {β : Type} (res : List (GoStr × β)) (k : GoStr) (v : β) :
    alook (aput res k v) k = some v := by
  induction res with
  | nil => simp [aput, alook]
  | cons e rest ih =>
    obtain ⟨k2, w⟩ := e
    by_cases hk : k2 = k
    · subst hk; simp [aput, alook]
    · simp [aput, alook, hk, ih]

/-- Lookup after inserting a different key. -/
theorem alook_aput_ne {β : Type} (res : List (GoStr × β)) (k key : GoStr)
    (v : β) (h : k ≠ key) :
    alook (aput res k v) key = alook res key := by
  induction res with
  | nil => simp [aput, alook, h]
  | cons e rest ih =>
    obtain ⟨k2, w⟩ := e
    by_cases hk : k2 = k
    · subst hk; simp [aput, alook, h]
    · by_cases hk2 : k2 = key
      · subst hk2; simp [aput, alook, hk]
      · simp [aput, alook, hk, hk2, ih]

/-- The break-on-first-valid loop of `normalizeObject` computes the
declarative first-valid-candidate rule. -/
theorem firstCandidate_spec (obj : List (GoStr × GoVal)) (cands : List GoStr) :
    firstCandidate obj cands = specFirstCandidate obj cands := by
  induction cands with
  | nil => rfl
  | cons c rest ih =>
    simp only [firstCandidate, specFirstCandidate, List.filterMap_cons]
    cases halo : alook obj c with
    | none =>
      have hc : candValue obj c = none := by simp [candValue, halo]
      rw [hc]
      exact ih
    | some v =>
      cases v
      case vstr s =>
        by_cases hne : goTrimSpace s = []
        · have hc : candValue obj c = none := by simp [candValue, halo, hne]
          rw [hc]
          simp only [hne, ne_eq, not_true_eq_false, if_false]
          exact ih
        · have hc : candValue obj c = some (goTrimSpace s) := by
            simp [candValue, halo, hne]
          rw [hc]
          simp only [hne, ne_eq, not_false_eq_true, if_true]
          rfl
      all_goals
        have hc : candValue obj c = none := by simp [candValue, halo]
      all_goals rw [hc]; exact ih

/-- Folding alias entries whose targets differ from the key leaves that
key's binding unchanged. -/
theorem normObj_fold_skip (obj : List (GoStr × GoVal))
    (fm : List (GoStr × List GoStr)) (res : List (GoStr × GoVal))
    (target : GoStr) (h : target ∉ fm.map Prod.fst) :
    alook (fm.foldl
      (fun res kv =>
        match firstCandidate obj kv.2 with
        | some s => aput res kv.1 (.vstr s)
        | none => res)
      res) target = alook res target := by
  induction fm generalizing res with
  | nil => rfl
  | cons kv rest ih =>
    obtain ⟨t0, c0⟩ := kv
    have ht0 : t0 ≠ target := by
      intro he
      exact h (by simp [he])
    have hrest : target ∉ rest.map Prod.fst := by
      intro hm
      exact h (by simp [hm])
    simp only [List.foldl_cons]
    cases hfc : firstCandidate obj c0 with
    | none => rw [ih _ hrest]
    | some s => rw [ih _ hrest, alook_aput_ne _ _ _ _ ht0]

/-- With distinct alias targets, the fold binds each target to exactly
its own first valid candidate. -/
theorem normObj_fold (obj : List (GoStr × GoVal))
    (fm : List (GoStr × List GoStr)) (res : List (GoStr × GoVal))
    (target : GoStr) (cands : List GoStr)
    (hnd : (fm.map Prod.fst).Nodup) (hmem : (target, cands) ∈ fm)
    (hres : alook res target = none) :
    alook (fm.foldl
      (fun res kv =>
        match firstCandidate obj kv.2 with
        | some s => aput res kv.1 (.vstr s)
        | none => res)
      res) target = (firstCandidate obj cands).map GoVal.vstr := by
  induction fm generalizing res with
  | nil => exact absurd hmem (by simp)
  | cons kv rest ih =>
    obtain ⟨t0, c0⟩ := kv
    simp only [List.map_cons, List.nodup_cons] at hnd
    obtain ⟨ht0, hndrest⟩ := hnd
    rcases List.mem_cons.mp hmem with heq | hm2
    · obtain ⟨he1, he2⟩ := Prod.mk.injEq .. ▸ heq
      subst he1
      subst he2
      have hskip : target ∉ rest.map Prod.fst := ht0
      simp only [List.foldl_cons]
      cases hfc : firstCandidate obj cands with
      | none =>
        rw [normObj_fold_skip obj rest res target hskip, hres]
        rfl
      | some s =>
        rw [normObj_fold_skip obj rest _ target hskip, alook_aput_self]
        rfl
    · have ht0ne : t0 ≠ target := by
        intro he
        subst he
        exact ht0 (by simpa using List.mem_map_of_mem Prod.fst hm2)
      simp only [List.foldl_cons]
      cases hfc : firstCandidate obj c0 with
      | none => exact ih _ hndrest hm2 hres
      | some s =>
        exact ih _ hndrest hm2 (by rw [alook_aput_ne _ _ _ _ ht0ne]; exact hres)

/-- The inner dedup loop of `mergeObjectArrays`: the kept objects have
non-empty unique-identifier strings that are pairwise distinct, none of
them previously seen; the final seen set is the old one plus the new
links; and every kept object is the normalization of some object of the
array. -/
theorem mergeObjsInner_spec (fm : List (GoStr × List GoStr)) (uid : GoStr)
    (els : List GoVal) (seen : List GoStr) :
    ((mergeObjsInner fm uid els seen).1.filterMap (objLink uid)).Nodup ∧
    (∀ l ∈ (mergeObjsInner fm uid els seen).1.filterMap (objLink uid), l ∉ seen) ∧
    (∀ l, l ∈ (mergeObjsInner fm uid els seen).2 ↔
      l ∈ seen ∨ l ∈ (mergeObjsInner fm uid els seen).1.filterMap (objLink uid)) ∧
    (∀ o ∈ (mergeObjsInner fm uid els seen).1,
      (∃ s, objLink uid o = some s ∧ s ≠ []) ∧
      ∃ fs, GoVal.vobj fs ∈ els ∧ o = normalizeObject fs fm) := by
  induction els generalizing seen with
  | nil => refine ⟨?_, ?_, ?_, ?_⟩ <;> simp [mergeObjsInner]
  | cons el rest ih =>
    cases el
    case vobj fs =>
      cases halo : alook (normalizeObject fs fm) uid with
      | some v =>
        cases v
        case vstr s =>
          by_cases hcond : s ≠ [] ∧ s ∉ seen
          · have hred : mergeObjsInner fm uid (GoVal.vobj fs :: rest) seen =
                (normalizeObject fs fm :: (mergeObjsInner fm uid rest (s :: seen)).1,
                 (mergeObjsInner fm uid rest (s :: seen)).2) := by
              simp only [mergeObjsInner, halo, if_pos hcond]
            obtain ⟨ihn, ihs, ihe, iho⟩ := ih (s :: seen)
            have hlink : objLink uid (normalizeObject fs fm) = some s := by
              simp [objLink, halo]
            rw [hred]
            have hfm : (normalizeObject fs fm ::
                (mergeObjsInner fm uid rest (s :: seen)).1).filterMap (objLink uid) =
                s :: (mergeObjsInner fm uid rest (s :: seen)).1.filterMap (objLink uid) := by
              simp [List.filterMap_cons, hlink]
            refine ⟨?_, ?_, ?_, ?_⟩
            · rw [hfm]
              refine List.nodup_cons.mpr ⟨?_, ihn⟩
              intro hs
              exact ihs s hs (List.mem_cons_self _ _)
            · rw [hfm]
              intro l hl
              rcases List.mem_cons.mp hl with heq | hl2
              · subst heq; exact hcond.2
              · intro hmem2
                exact ihs l hl2 (List.mem_cons_of_mem _ hmem2)
            · intro l
              rw [hfm]
              rw [ihe l]
              simp only [List.mem_cons]
              tauto
            · intro o ho
              rcases List.mem_cons.mp ho with heq | ho2
              · subst heq
                exact ⟨⟨s, hlink, hcond.1⟩, fs, List.mem_cons_self _ _, rfl⟩
              · obtain ⟨hs, fs2, hfs2, he2⟩ := iho o ho2
                exact ⟨hs, fs2, List.mem_cons_of_mem _ hfs2, he2⟩
          · have hred : mergeObjsInner fm uid (GoVal.vobj fs :: rest) seen =
                mergeObjsInner fm uid rest seen := by
              simp only [mergeObjsInner, halo, if_neg hcond]
            obtain ⟨ihn, ihs, ihe, iho⟩ := ih seen
            rw [hred]
            refine ⟨ihn, ihs, ihe, ?_⟩
            intro o ho
            obtain ⟨hs, fs2, hfs2, he2⟩ := iho o ho
            exact ⟨hs, fs2, List.mem_cons_of_mem _ hfs2, he2⟩
        all_goals
          obtain ⟨ihn, ihs, ihe, iho⟩ := ih seen
          simp only [mergeObjsInner, halo]
          refine ⟨ihn, ihs, ihe, ?_⟩
          intro o ho
          obtain ⟨hs, fs2, hfs2, he2⟩ := iho o ho
          exact ⟨hs, fs2, List.mem_cons_of_mem _ hfs2, he2⟩
      | none =>
        obtain ⟨ihn, ihs, ihe, iho⟩ := ih seen
        have hred : mergeObjsInner fm uid (GoVal.vobj fs :: rest) seen =
            mergeObjsInner fm uid rest seen := by
          simp only [mergeObjsInner, halo]
        rw [hred]
        refine ⟨ihn, ihs, ihe, ?_⟩
        intro o ho
        obtain ⟨hs, fs2, hfs2, he2⟩ := iho o ho
        exact ⟨hs, fs2, List.mem_cons_of_mem _ hfs2, he2⟩
    all_goals
      obtain ⟨ihn, ihs, ihe, iho⟩ := ih seen
      simp only [mergeObjsInner]
      refine ⟨ihn, ihs, ihe, ?_⟩
      intro o ho
      obtain ⟨hs, fs2, hfs2, he2⟩ := iho o ho
      exact ⟨hs, fs2, List.mem_cons_of_mem _ hfs2, he2⟩

/-- The supplier loop of `mergeObjectArrays`: over all suppliers, the
kept objects have pairwise-distinct non-empty identifier strings, none
previously seen, and each is the normalization of an object of some
supplier's array. -/
theorem mergeObjsOuter_spec (fm : List (GoStr × List GoStr)) (uid : GoStr)
    (vals : List GoVal) (seen : List GoStr) :
    ((mergeObjsOuter fm uid vals seen).filterMap (objLink uid)).Nodup ∧
    (∀ l ∈ (mergeObjsOuter fm uid vals seen).filterMap (objLink uid), l ∉ seen) ∧
    (∀ o ∈ mergeObjsOuter fm uid vals seen,
      (∃ s, objLink uid o = some s ∧ s ≠ []) ∧
      ∃ fs v, v ∈ vals ∧ (∃ els, v = GoVal.varr els ∧ GoVal.vobj fs ∈ els) ∧
        o = normalizeObject fs fm) := by
  induction vals generalizing seen with
  | nil => refine ⟨?_, ?_, ?_⟩ <;> simp [mergeObjsOuter]
  | cons v rest ih =>
    cases v
    case varr els =>
      obtain ⟨inn, ins, ine, ino⟩ := mergeObjsInner_spec fm uid els seen
      obtain ⟨ihn, ihs, iho⟩ := ih ((mergeObjsInner fm uid els seen).2)
      have hred : mergeObjsOuter fm uid (GoVal.varr els :: rest) seen =
          (mergeObjsInner fm uid els seen).1 ++
            mergeObjsOuter fm uid rest (mergeObjsInner fm uid els seen).2 := by
        simp only [mergeObjsOuter]
      rw [hred]
      refine ⟨?_, ?_, ?_⟩
      · rw [List.filterMap_append]
        refine List.Nodup.append inn ihn ?_
        intro a ha hb
        exact ihs a hb ((ine a).mpr (Or.inr ha))
      · rw [List.filterMap_append]
        intro l hl
        rcases List.mem_append.mp hl with h1 | h2
        · exact ins l h1
        · intro hmem
          exact ihs l h2 ((ine l).mpr (Or.inl hmem))
      · intro o ho
        rcases List.mem_append.mp ho with h1 | h2
        · obtain ⟨hs, fs, hfs, he⟩ := (ino o h1)
          exact ⟨hs, fs, GoVal.varr els, List.mem_cons_self _ _, ⟨els, rfl, hfs⟩, he⟩
        · obtain ⟨hs, fs, v2, hv2, hex, he⟩ := iho o h2
          exact ⟨hs, fs, v2, List.mem_cons_of_mem _ hv2, hex, he⟩
    all_goals
      obtain ⟨ihn, ihs, iho⟩ := ih seen
      simp only [mergeObjsOuter]
      refine ⟨ihn, ihs, ?_⟩
      intro o ho
      obtain ⟨hs, fs, v2, hv2, hex, he⟩ := iho o ho
      exact ⟨hs, fs, v2, List.mem_cons_of_mem _ hv2, hex, he⟩

/-- C5: object-array merging.  First, `normalizeObject` copies, for each
entry of the field-alias table (with its distinct targets), exactly the
first candidate whose value in the object is a string that is non-empty
after trimming, trimmed, into the target field.  Second, every object of
the `merge_image_arrays` result carries a non-empty unique-identifier
string, those strings are pairwise distinct (first visited wins), and
every output object is the normalization of some object of some
supplier's array. -/
theorem claim_C5 :
    (∀ (obj : List (GoStr × GoVal)) (fm : List (GoStr × List GoStr))
        (target : GoStr) (cands : List GoStr),
      (fm.map Prod.fst).Nodup → (target, cands) ∈ fm →
      alook (normalizeObject obj fm) target =
        (specFirstCandidate obj cands).map GoVal.vstr) ∧
    (∀ (values : List (GoStr × GoVal)) (fm : List (GoStr × List GoStr))
        (uid : GoStr) (objs : List GoVal),
      mergeObjectArrays values fm uid = GoVal.varr objs →
      ∃ raw : List (List (GoStr × GoVal)), objs = raw.map GoVal.vobj ∧
        (raw.filterMap (objLink uid)).Nodup ∧
        ∀ o ∈ raw, (∃ s, objLink uid o = some s ∧ s ≠ []) ∧
          ∃ fs v, v ∈ values.map Prod.snd ∧
            (∃ els, v = GoVal.varr els ∧ GoVal.vobj fs ∈ els) ∧
            o = normalizeObject fs fm) := by
  constructor
  · intro obj fm target cands hnd hmem
    rw [← firstCandidate_spec]
    exact normObj_fold obj fm [] target cands hnd hmem rfl
  · intro values fm uid objs h
    refine ⟨mergeObjsOuter fm uid (values.map Prod.snd) [], ?_, ?_, ?_⟩
    · have h2 : GoVal.varr ((mergeObjsOuter fm uid (values.map Prod.snd) []).map
          GoVal.vobj) = GoVal.varr objs := h
      exact (GoVal.varr.inj h2).symm
    · exact (mergeObjsOuter_spec fm uid _ []).1
    · exact (mergeObjsOuter_spec fm uid _ []).2.2

/-- Witness for C5 at a concrete alias table and two suppliers sharing
one image link. -/
theorem claim_C5_witness :
    (alook (normalizeObject
        [(gs "url", GoVal.vstr (gs "u1")), (gs "caption", GoVal.vstr (gs " c "))]
        [(gs "link", [gs "url", gs "link"]),
         (gs "description", [gs "description", gs "caption"])])
      (gs "description") =
      (specFirstCandidate
        [(gs "url", GoVal.vstr (gs "u1")), (gs "caption", GoVal.vstr (gs " c "))]
        [gs "description", gs "caption"]).map GoVal.vstr) ∧
    (∃ raw : List (List (GoStr × GoVal)),
        ([GoVal.vobj [(gs "link", GoVal.vstr (gs "u"))]] : List GoVal) =
        raw.map GoVal.vobj ∧
      (raw.filterMap (objLink (gs "link"))).Nodup ∧
      ∀ o ∈ raw, (∃ s, objLink (gs "link") o = some s ∧ s ≠ []) ∧
        ∃ fs v,
          v ∈ ([(gs "src::a", GoVal.varr [GoVal.vobj [(gs "url", GoVal.vstr (gs "u"))]]),
                (gs "src::b", GoVal.varr [GoVal.vobj [(gs "link", GoVal.vstr (gs "u"))]])] :
              List (GoStr × GoVal)).map Prod.snd ∧
          (∃ els, v = GoVal.varr els ∧ GoVal.vobj fs ∈ els) ∧
          o = normalizeObject fs
            [(gs "link", [gs "url", gs "link"]),
             (gs "description", [gs "description", gs "caption"])]) :=
  ⟨claim_C5.1
      [(gs "url", GoVal.vstr (gs "u1")), (gs "caption", GoVal.vstr (gs " c "))]
      [(gs "link", [gs "url", gs "link"]),
       (gs "description", [gs "description", gs "caption"])]
      (gs "description") [gs "description", gs "caption"]
      (by decide) (by decide),
   claim_C5.2
      [(gs "src::a", GoVal.varr [GoVal.vobj [(gs "url", GoVal.vstr (gs "u"))]]),
       (gs "src::b", GoVal.varr [GoVal.vobj [(gs "link", GoVal.vstr (gs "u"))]])]
      [(gs "link", [gs "url", gs "link"]),
       (gs "description", [gs "description", gs "caption"])]
      (gs "link")
      [GoVal.vobj [(gs "link", GoVal.vstr (gs "u"))]]
      rfl⟩

/-- Character facts of a brace-free string. -/
theorem braceFree_chars {s : GoStr} (h : braceFree s = true) :
    ∀ c ∈ s, c ≠ lbrace ∧ c ≠ rbrace := by
  intro c hc
  have h2 := List.all_eq_true.mp h c hc
  simpa using h2

/-- Brace-freedom from character facts. -/
theorem braceFree_of_chars {s : GoStr} (h : ∀ c ∈ s, c ≠ lbrace ∧ c ≠ rbrace) :
    braceFree s = true := by
  rw [braceFree, List.all_eq_true]
  intro c hc
  simpa using h c hc

/-- Brace-freedom distributes over concatenation. -/
theorem braceFree_append (a b : GoStr) :
    braceFree (a ++ b) = (braceFree a && braceFree b) := by
  simp [braceFree, List.all_append]

/-- A run of non-closing-brace characters is taken whole. -/
theorem takeWhile_no_rb {n : GoStr} (h : ∀ c ∈ n, c ≠ rbrace) (t : GoStr) :
    (n ++ rbrace :: t).takeWhile (fun ch => ch ≠ rbrace) = n := by
  induction n with
  | nil => simp
  | cons c rest ih =>
    have hc := h c (List.mem_cons_self _ _)
    have ih2 := ih (fun c2 hm => h c2 (List.mem_cons_of_mem _ hm))
    simp only [List.cons_append, List.takeWhile_cons]
    simp [hc]
    simpa using ih2

/-- A run of non-closing-brace characters is dropped whole. -/
theorem dropWhile_no_rb {n : GoStr} (h : ∀ c ∈ n, c ≠ rbrace) (t : GoStr) :
    (n ++ rbrace :: t).dropWhile (fun ch => ch ≠ rbrace) = rbrace :: t := by
  induction n with
  | nil => simp
  | cons c rest ih =>
    have hc := h c (List.mem_cons_self _ _)
    have ih2 := ih (fun c2 hm => h c2 (List.mem_cons_of_mem _ hm))
    simp only [List.cons_append, List.dropWhile_cons]
    simp [hc]
    simpa using ih2

/-- The placeholder scan skips a character that does not open a brace. -/
theorem findPlaceholders_cons_ne {c : Char} (h : c ≠ lbrace) (rest : GoStr) :
    findPlaceholders (c :: rest) = findPlaceholders rest := by
  rw [findPlaceholders.eq_def]
  simp [h]

/-- The placeholder scan passes over brace-free literal text. -/
theorem findPlaceholders_lit {s : GoStr} (h : ∀ c ∈ s, c ≠ lbrace) (t : GoStr) :
    findPlaceholders (s ++ t) = findPlaceholders t := by
  induction s with
  | nil => rfl
  | cons c rest ih =>
    rw [List.cons_append,
      findPlaceholders_cons_ne (h c (List.mem_cons_self _ _))]
    exact ih (fun c2 hm => h c2 (List.mem_cons_of_mem _ hm))

/-- The placeholder scan recognises a well-formed placeholder and resumes
after it. -/
theorem findPlaceholders_ph {n : GoStr} (hne : n ≠ [])
    (hbf : ∀ c ∈ n, c ≠ rbrace) (t : GoStr) :
    findPlaceholders (lbrace :: lbrace :: (n ++ rbrace :: rbrace :: t)) =
      n :: findPlaceholders t := by
  obtain ⟨i0, irest, rfl⟩ := List.exists_cons_of_ne_nil hne
  rw [findPlaceholders.eq_def]
  simp only [if_pos rfl, reduceIte]
  rw [show ((i0 :: irest) ++ rbrace :: rbrace :: t).dropWhile (fun ch => ch ≠ rbrace) =
      rbrace :: rbrace :: t from dropWhile_no_rb hbf (rbrace :: t)]
  rw [show ((i0 :: irest) ++ rbrace :: rbrace :: t).takeWhile (fun ch => ch ≠ rbrace) =
      i0 :: irest from takeWhile_no_rb hbf (rbrace :: t)]
  simp

/-- Rendering a placeholder segment prepends its full placeholder text. -/
theorem renderTemplate_ph (n : GoStr) (rest : List TmplSeg) :
    renderTemplate (.ph n :: rest) = patOf n ++ renderTemplate rest := by
  simp [renderTemplate, patOf]

/-- The scanner finds exactly the placeholder names of a well-shaped
structured template, in order. -/
theorem findPlaceholders_render (segs : List TmplSeg)
    (h : ∀ seg ∈ segs, goodShape seg) :
    findPlaceholders (renderTemplate segs) = segNames segs := by
  induction segs with
  | nil => rw [renderTemplate, segNames, findPlaceholders]
  | cons seg rest ih =>
    have hrest := fun s hm => h s (List.mem_cons_of_mem _ hm)
    cases seg with
    | lit s =>
      have hs : braceFree s = true := h (.lit s) (List.mem_cons_self _ _)
      rw [show renderTemplate (.lit s :: rest) = s ++ renderTemplate rest from rfl]
      rw [findPlaceholders_lit (fun c hc => (braceFree_chars hs c hc).1)]
      rw [show segNames (.lit s :: rest) = segNames rest from rfl]
      exact ih hrest
    | ph n =>
      obtain ⟨hne, hbf⟩ := h (.ph n) (List.mem_cons_self _ _)
      rw [show renderTemplate (.ph n :: rest) =
        lbrace :: lbrace :: (n ++ rbrace :: rbrace :: renderTemplate rest) from rfl]
      rw [findPlaceholders_ph hne (fun c hc => (braceFree_chars hbf c hc).2)]
      rw [show segNames (.ph n :: rest) = n :: segNames rest from rfl]
      rw [ih hrest]

/-- A list is a prefix of itself followed by anything. -/
theorem isPrefixL_append_self (p t : GoStr) : isPrefixL p (p ++ t) = true := by
  induction p with
  | nil => rfl
  | cons a as ih => simp [isPrefixL, ih]

/-- Differing heads refute a prefix. -/
theorem isPrefixL_head_ne {a b : Char} (h : a ≠ b) (as bs : GoStr) :
    isPrefixL (a :: as) (b :: bs) = false := by
  simp [isPrefixL, h]

/-- Two closing-brace-free names followed by their closing braces can
only align as prefixes when equal. -/
theorem isPrefixL_names {n : GoStr} :
    ∀ {m : GoStr} (t : GoStr), (∀ c ∈ n, c ≠ rbrace) → (∀ c ∈ m, c ≠ rbrace) →
    isPrefixL (n ++ [rbrace, rbrace]) (m ++ rbrace :: rbrace :: t) = true →
    n = m := by
  induction n with
  | nil =>
    intro m t _ hm hpre
    cases m with
    | nil => rfl
    | cons b m2 =>
      rw [List.nil_append, List.cons_append] at hpre
      rw [isPrefixL_head_ne (Ne.symm (hm b (List.mem_cons_self _ _)))] at hpre
      exact absurd hpre (by simp)
  | cons a n2 ih =>
    intro m t hn hm hpre
    cases m with
    | nil =>
      rw [List.cons_append, List.nil_append] at hpre
      rw [isPrefixL_head_ne (hn a (List.mem_cons_self _ _))] at hpre
      exact absurd hpre (by simp)
    | cons b m2 =>
      rw [List.cons_append, List.cons_append, isPrefixL] at hpre
      rw [Bool.and_eq_true] at hpre
      obtain ⟨hab, hrec⟩ := hpre
      have hab2 : a = b := by simpa using hab
      subst hab2
      rw [ih t (fun c hc => hn c (List.mem_cons_of_mem _ hc))
        (fun c hc => hm c (List.mem_cons_of_mem _ hc)) hrec]

/-- The placeholder of one name never matches at the start of another
name's placeholder. -/
theorem pat_no_match_other {n m : GoStr} (hnm : m ≠ n)
    (hn : braceFree n = true) (hm : braceFree m = true) (t : GoStr) :
    isPrefixL (patOf n) (lbrace :: lbrace :: (m ++ rbrace :: rbrace :: t)) = false := by
  rw [patOf, isPrefixL, isPrefixL]
  simp only [show decide (lbrace = lbrace) = true from rfl, Bool.true_and]
  cases hb : isPrefixL (n ++ [rbrace, rbrace]) (m ++ rbrace :: rbrace :: t) with
  | false => simp
  | true =>
    exact absurd (isPrefixL_names t (fun c hc => (braceFree_chars hn c hc).2)
      (fun c hc => (braceFree_chars hm c hc).2) hb) (Ne.symm hnm)

/-- Nor does it match one character later, inside the opening braces. -/
theorem pat_no_match_pos1 {n m : GoStr} (hmne : m ≠ [])
    (hm : braceFree m = true) (t : GoStr) :
    isPrefixL (patOf n) (lbrace :: (m ++ rbrace :: rbrace :: t)) = false := by
  obtain ⟨c0, m2, rfl⟩ := List.exists_cons_of_ne_nil hmne
  rw [patOf, isPrefixL, List.cons_append, isPrefixL_head_ne
    (Ne.symm ((braceFree_chars hm c0 (List.mem_cons_self _ _)).1))]
  simp

/-- One no-match scanning step of `strings.ReplaceAll`. -/
theorem replaceAllAux_cons_nomatch {p : Char} {ps rep : GoStr} {c : Char}
    {rest : GoStr} (h : isPrefixL (p :: ps) (c :: rest) = false) :
    replaceAllAux p ps rep (c :: rest) = c :: replaceAllAux p ps rep rest := by
  rw [replaceAllAux.eq_def]
  simp [h]

/-- The matching step of `strings.ReplaceAll`: the pattern is replaced
and scanning resumes after it. -/
theorem replaceAllAux_cons_match (p : Char) (ps rep t : GoStr) :
    replaceAllAux p ps rep ((p :: ps) ++ t) = rep ++ replaceAllAux p ps rep t := by
  have hpre : isPrefixL (p :: ps) (p :: (ps ++ t)) = true := by
    simpa using isPrefixL_append_self (p :: ps) t
  rw [List.cons_append, replaceAllAux.eq_def]
  simp only [hpre, if_true]
  rw [List.drop_left]

/-- `strings.ReplaceAll` copies text free of the pattern head verbatim. -/
theorem replaceAllAux_lit {p : Char} {ps rep : GoStr} {s : GoStr}
    (h : ∀ c ∈ s, c ≠ p) (t : GoStr) :
    replaceAllAux p ps rep (s ++ t) = s ++ replaceAllAux p ps rep t := by
  induction s with
  | nil => rfl
  | cons c rest ih =>
    rw [List.cons_append,
      replaceAllAux_cons_nomatch (isPrefixL_head_ne (Ne.symm (h c (List.mem_cons_self _ _))) _ _)]
    rw [ih (fun c2 hm => h c2 (List.mem_cons_of_mem _ hm)), List.cons_append]

/-- A segment satisfying the full side conditions has a good shape. -/
theorem goodSeg_shape {record : GoVal} {seg : TmplSeg} (h : goodSeg record seg) :
    goodShape seg := by
  cases seg with
  | lit s => exact h
  | ph n => exact ⟨h.1, h.2.1⟩

/-- Replacing one name's placeholders by its (brace-free) value preserves
the side conditions. -/
theorem replaceSeg_good {record : GoVal} {segs : List TmplSeg}
    (h : ∀ seg ∈ segs, goodSeg record seg) (f : GoStr) :
    ∀ seg ∈ segs.map (replaceSeg record f), goodSeg record seg := by
  intro seg hm
  obtain ⟨seg0, hseg0, rfl⟩ := List.mem_map.mp hm
  have h0 := h seg0 hseg0
  cases seg0 with
  | lit s => exact h0
  | ph m =>
    rw [replaceSeg]
    by_cases hmf : m = f
    · subst hmf
      rw [if_pos rfl]
      exact h0.2.2
    · rw [if_neg hmf]
      exact h0

/-- One substitution step of the Go loop on a rendered template equals
replacing that name's placeholder segments. -/
theorem replaceAll_render (record : GoVal) (n : GoStr) (hne : n ≠ [])
    (hbf : braceFree n = true) (segs : List TmplSeg)
    (hgood : ∀ seg ∈ segs, goodShape seg) :
    replaceAll (renderTemplate segs) (patOf n) (templateValue record n) =
      renderTemplate (segs.map (replaceSeg record n)) := by
  have hred : replaceAll (renderTemplate segs) (patOf n) (templateValue record n) =
      replaceAllAux lbrace (lbrace :: (n ++ [rbrace, rbrace]))
        (templateValue record n) (renderTemplate segs) := rfl
  rw [hred]
  clear hred
  induction segs with
  | nil =>
    rw [show renderTemplate [] = [] from rfl, replaceAllAux.eq_def]
    rfl
  | cons seg rest ih =>
    have hrest := fun s hm => hgood s (List.mem_cons_of_mem _ hm)
    have ih2 := ih hrest
    cases seg with
    | lit s =>
      have hs : braceFree s = true := hgood (.lit s) (List.mem_cons_self _ _)
      rw [show renderTemplate (.lit s :: rest) = s ++ renderTemplate rest from rfl]
      rw [replaceAllAux_lit (fun c hc => (braceFree_chars hs c hc).1)]
      rw [ih2]
      rfl
    | ph m =>
      by_cases hmn : m = n
      · subst hmn
        rw [renderTemplate_ph]
        rw [show patOf m = (lbrace :: (lbrace :: (m ++ [rbrace, rbrace]))) from rfl]
        rw [replaceAllAux_cons_match]
        rw [ih2]
        rw [show (TmplSeg.ph m :: rest).map (replaceSeg record m) =
          .lit (templateValue record m) :: rest.map (replaceSeg record m) from by
            simp [replaceSeg]]
        rfl
      · obtain ⟨hmne, hmbf⟩ := hgood (.ph m) (List.mem_cons_self _ _)
        rw [show renderTemplate (.ph m :: rest) =
          lbrace :: lbrace :: (m ++ rbrace :: rbrace :: renderTemplate rest) from rfl]
        rw [replaceAllAux_cons_nomatch (pat_no_match_other hmn hbf hmbf _)]
        rw [replaceAllAux_cons_nomatch (pat_no_match_pos1 hmne hmbf _)]
        rw [replaceAllAux_lit (fun c hc => (braceFree_chars hmbf c hc).1)]
        rw [replaceAllAux_cons_nomatch
          (isPrefixL_head_ne (by decide : lbrace ≠ rbrace) _ _)]
        rw [replaceAllAux_cons_nomatch
          (isPrefixL_head_ne (by decide : lbrace ≠ rbrace) _ _)]
        rw [ih2]
        rw [show (TmplSeg.ph m :: rest).map (replaceSeg record n) =
          .ph m :: rest.map (replaceSeg record n) from by simp [replaceSeg, hmn]]
        rfl

/-- The whole substitution fold on a rendered template replaces the
listed names segment-wise. -/
theorem fold_replace (record : GoVal) (names : List GoStr) :
    ∀ segs : List TmplSeg, (∀ seg ∈ segs, goodSeg record seg) →
    (∀ f ∈ names, f ≠ [] ∧ braceFree f = true) →
    names.foldl (fun result field =>
        replaceAll result (patOf field) (templateValue record field))
      (renderTemplate segs) =
      renderTemplate (names.foldl (fun sg f => sg.map (replaceSeg record f)) segs) := by
  induction names with
  | nil => intro segs _ _; rfl
  | cons f ns ih =>
    intro segs hgood hnames
    obtain ⟨hfne, hfbf⟩ := hnames f (List.mem_cons_self _ _)
    rw [List.foldl_cons, List.foldl_cons]
    rw [replaceAll_render record f hfne hfbf segs (fun s hm => goodSeg_shape (hgood s hm))]
    exact ih _ (replaceSeg_good hgood f) (fun g hm => hnames g (List.mem_cons_of_mem _ hm))

/-- Folding segment-wise replacements is mapping the per-segment fold. -/
theorem foldl_map_replaceSeg (record : GoVal) (names : List GoStr) :
    ∀ segs : List TmplSeg,
    names.foldl (fun sg f => sg.map (replaceSeg record f)) segs =
      segs.map (fun seg => names.foldl (fun s f => replaceSeg record f s) seg) := by
  induction names with
  | nil => intro segs; simp
  | cons f ns ih =>
    intro segs
    rw [List.foldl_cons, ih, List.map_map]
    rfl

/-- Literal segments are fixed by every replacement. -/
theorem foldl_replaceSeg_lit (record : GoVal) (names : List GoStr) (s : GoStr) :
    names.foldl (fun sg f => replaceSeg record f sg) (.lit s) = .lit s := by
  induction names with
  | nil => rfl
  | cons f ns ih => rw [List.foldl_cons]; exact ih

/-- A placeholder whose name occurs in the list ends up substituted. -/
theorem foldl_replaceSeg_ph (record : GoVal) (names : List GoStr) :
    ∀ m, m ∈ names →
    names.foldl (fun sg f => replaceSeg record f sg) (.ph m) =
      .lit (templateValue record m) := by
  induction names with
  | nil => intro m hm; exact absurd hm (by simp)
  | cons f ns ih =>
    intro m hm
    rw [List.foldl_cons]
    by_cases hmf : m = f
    · subst hmf
      rw [show replaceSeg record m (.ph m) = .lit (templateValue record m) from by
        simp [replaceSeg]]
      exact foldl_replaceSeg_lit record ns _
    · rw [show replaceSeg record f (.ph m) = .ph m from by simp [replaceSeg, hmf]]
      refine ih m ?_
      rcases List.mem_cons.mp hm with h | h
      · exact absurd h hmf
      · exact h

/-- A placeholder segment's name is among the template's names. -/
theorem segNames_mem {segs : List TmplSeg} {n : GoStr}
    (h : TmplSeg.ph n ∈ segs) : n ∈ segNames segs := by
  induction segs with
  | nil => exact absurd h (by simp)
  | cons seg rest ih =>
    rcases List.mem_cons.mp h with heq | hm
    · rw [← heq, segNames]
      exact List.mem_cons_self _ _
    · cases seg with
      | lit s => rw [segNames]; exact ih hm
      | ph m => rw [segNames]; exact List.mem_cons_of_mem _ (ih hm)

/-- Conversely every listed name comes from a placeholder segment. -/
theorem segNames_mem_inv {segs : List TmplSeg} {f : GoStr}
    (h : f ∈ segNames segs) : TmplSeg.ph f ∈ segs := by
  induction segs with
  | nil => exact absurd h (by simp [segNames])
  | cons seg rest ih =>
    cases seg with
    | lit s =>
      rw [segNames] at h
      exact List.mem_cons_of_mem _ (ih h)
    | ph m =>
      rw [segNames] at h
      rcases List.mem_cons.mp h with heq | hm
      · rw [heq]
        exact List.mem_cons_self _ _
      · exact List.mem_cons_of_mem _ (ih hm)

/-- Rendering the fully substituted segments is the declarative
substitution. -/
theorem render_substSeg (record : GoVal) (segs : List TmplSeg) :
    renderTemplate (segs.map (substSeg record)) = specSubstitute record segs := by
  induction segs with
  | nil => rfl
  | cons seg rest ih =>
    cases seg with
    | lit s =>
      rw [show (TmplSeg.lit s :: rest).map (substSeg record) =
        .lit s :: rest.map (substSeg record) from rfl]
      rw [show renderTemplate (TmplSeg.lit s :: rest.map (substSeg record)) =
        s ++ renderTemplate (rest.map (substSeg record)) from rfl]
      rw [ih]
      rfl
    | ph m =>
      rw [show (TmplSeg.ph m :: rest).map (substSeg record) =
        .lit (templateValue record m) :: rest.map (substSeg record) from rfl]
      rw [show renderTemplate (TmplSeg.lit (templateValue record m) ::
          rest.map (substSeg record)) =
        templateValue record m ++ renderTemplate (rest.map (substSeg record)) from rfl]
      rw [ih]
      rfl

/-- The Go substitution loop on a well-shaped rendered template computes
exactly the declarative substitution. -/
theorem substPlaceholders_render (record : GoVal) (segs : List TmplSeg)
    (hgood : ∀ seg ∈ segs, goodSeg record seg) :
    substPlaceholders record (renderTemplate segs) = specSubstitute record segs := by
  rw [substPlaceholders]
  rw [findPlaceholders_render segs (fun s hm => goodSeg_shape (hgood s hm))]
  have hnames : ∀ f ∈ segNames segs, f ≠ [] ∧ braceFree f = true := by
    intro f hf
    have h2 := hgood (.ph f) (segNames_mem_inv hf)
    exact ⟨h2.1, h2.2.1⟩
  rw [fold_replace record (segNames segs) segs hgood hnames]
  rw [foldl_map_replaceSeg]
  have hper : ∀ seg ∈ segs,
      (segNames segs).foldl (fun s f => replaceSeg record f s) seg =
        substSeg record seg := by
    intro seg hm
    cases seg with
    | lit s => rw [foldl_replaceSeg_lit]; rfl
    | ph m => rw [foldl_replaceSeg_ph record _ m (segNames_mem hm)]; rfl
  rw [List.map_congr_left hper, render_substSeg]

/-- Under the per-segment side conditions the substituted string is
brace-free. -/
theorem braceFree_specSubstitute {record : GoVal} {segs : List TmplSeg}
    (h : ∀ seg ∈ segs, goodSeg record seg) :
    braceFree (specSubstitute record segs) = true := by
  induction segs with
  | nil => rfl
  | cons seg rest ih =>
    have hrest := ih (fun s hm => h s (List.mem_cons_of_mem _ hm))
    cases seg with
    | lit s =>
      rw [specSubstitute, braceFree_append, h (.lit s) (List.mem_cons_self _ _), hrest]
      rfl
    | ph n =>
      rw [specSubstitute, braceFree_append,
        (h (.ph n) (List.mem_cons_self _ _)).2.2, hrest]
      rfl

/-- Every character of a trimmed string comes from the original. -/
theorem goTrimSpace_chars (s : GoStr) : ∀ c ∈ goTrimSpace s, c ∈ s := by
  intro c hc
  rw [goTrimSpace] at hc
  have h1 := (List.dropWhile_sublist _).subset (List.mem_reverse.mp hc)
  exact (List.dropWhile_sublist _).subset (List.mem_reverse.mp h1)

/-- The remainder returned by a comma-run match sits inside the input. -/
theorem matchCommaRun_subset {s r : GoStr} (h : matchCommaRun s = some r) :
    ∀ c ∈ r, c ∈ s := by
  intro c hc
  rw [matchCommaRun] at h
  split at h
  next t1 heq1 =>
    split at h
    next t3 heq2 =>
      cases h
      have h3 : c ∈ t3 := (List.dropWhile_sublist _).subset hc
      have h4 : c ∈ t1.dropWhile isRegexSpace := by
        rw [heq2]; exact List.mem_cons_of_mem _ h3
      have h5 : c ∈ t1 := (List.dropWhile_sublist _).subset h4
      have h6 : c ∈ s.dropWhile isRegexSpace := by
        rw [heq1]; exact List.mem_cons_of_mem _ h5
      exact (List.dropWhile_sublist _).subset h6
    next => exact absurd h (by simp)
  next => exact absurd h (by simp)

/-- Characters produced by the comma-collapsing pass are either input
characters, a comma or a space. -/
theorem collapseCommaRun_chars :
    ∀ s : GoStr, ∀ c ∈ collapseCommaRun s, c ∈ s ∨ c = ',' ∨ c = ' ' := by
  intro s
  induction s using collapseCommaRun.induct with
  | case1 =>
    intro c hc
    rw [collapseCommaRun] at hc
    exact absurd hc (by simp)
  | case2 c0 rest r hM ih =>
    intro c hc
    rw [collapseCommaRun.eq_def] at hc
    split at hc
    next heq => exact List.noConfusion heq
    next c1 rest1 heq =>
      injection heq with he1 he2
      subst he1
      subst he2
      split at hc
      next r2 heq2 =>
        rw [hM] at heq2
        injection heq2 with heq3
        subst heq3
        rcases List.mem_cons.mp hc with h1 | h1
        · exact Or.inr (Or.inl h1)
        rcases List.mem_cons.mp h1 with h2 | h2
        · exact Or.inr (Or.inr h2)
        rcases ih c h2 with h3 | h3
        · exact Or.inl (matchCommaRun_subset hM c h3)
        · exact Or.inr h3
      next heq2 =>
        rw [hM] at heq2
        exact Option.noConfusion heq2
  | case3 c0 rest hM ih =>
    intro c hc
    rw [collapseCommaRun.eq_def] at hc
    split at hc
    next heq => exact List.noConfusion heq
    next c1 rest1 heq =>
      injection heq with he1 he2
      subst he1
      subst he2
      split at hc
      next r2 heq2 =>
        rw [hM] at heq2
        exact Option.noConfusion heq2
      next heq2 =>
        rcases List.mem_cons.mp hc with h1 | h1
        · exact Or.inl (h1 ▸ List.mem_cons_self _ _)
        rcases ih c h1 with h3 | h3
        · exact Or.inl (List.mem_cons_of_mem _ h3)
        · exact Or.inr h3

/-- Stripping a leading comma only drops characters. -/
theorem stripLeading_chars (s : GoStr) : ∀ c ∈ stripLeading s, c ∈ s := by
  intro c hc
  rw [stripLeading.eq_def] at hc
  split at hc
  next rest => exact List.mem_cons_of_mem _ ((List.dropWhile_sublist _).subset hc)
  next => exact hc

/-- Stripping a trailing comma only drops characters. -/
theorem stripTrailing_chars :
    ∀ s : GoStr, ∀ c ∈ stripTrailing s, c ∈ s := by
  intro s
  induction s with
  | nil => intro c hc; exact hc
  | cons c0 rest ih =>
    intro c hc
    rw [stripTrailing.eq_def] at hc
    split at hc
    next heq => exact List.noConfusion heq
    next rest1 heq =>
      injection heq with he1 he2
      subst he1
      subst he2
      split at hc
      · exact absurd hc (by simp)
      · rcases List.mem_cons.mp hc with h1 | h1
        · exact h1 ▸ List.mem_cons_self _ _
        · exact List.mem_cons_of_mem _ (ih c h1)
    next c1 rest1 hne heq =>
      injection heq with he1 he2
      subst he1
      subst he2
      rcases List.mem_cons.mp hc with h1 | h1
      · exact h1 ▸ List.mem_cons_self _ _
      · exact List.mem_cons_of_mem _ (ih c h1)

/-- Post-processing preserves brace-freeness. -/
theorem braceFree_post {s : GoStr} (h : braceFree s = true) :
    braceFree (postProcessTemplate s) = true := by
  apply braceFree_of_chars
  intro c hc
  rw [postProcessTemplate] at hc
  have h1 := stripTrailing_chars _ c hc
  have h2 := stripLeading_chars _ c h1
  rcases collapseCommaRun_chars _ c h2 with h3 | h3 | h3
  · exact braceFree_chars h c (goTrimSpace_chars _ c h3)
  · exact h3 ▸ ⟨by decide, by decide⟩
  · exact h3 ▸ ⟨by decide, by decide⟩

/-- A doubled character cannot occur as a substring of a string avoiding
that character. -/
theorem containsSub_two_false {s : GoStr} {b : Char} (h : ∀ c ∈ s, c ≠ b) :
    containsSub s [b, b] = false := by
  induction s with
  | nil => rfl
  | cons c rest ih =>
    have hc := h c (List.mem_cons_self _ _)
    have h1 : isPrefixL [b, b] (c :: rest) = false := by
      have hbc : (decide (b = c)) = false := decide_eq_false (fun h2 => hc h2.symm)
      rw [isPrefixL, hbc, Bool.false_and]
    rw [containsSub, h1, ih (fun d hd => h d (List.mem_cons_of_mem _ hd))]
    rfl

/-- C4, counterexample: the expression made of an opening double brace
directly followed by a closing double brace is recognised as a template,
yet the placeholder regex (which requires a non-empty inner name) finds no
match, so `processTemplate` returns the string unchanged and the output
still contains both double-brace substrings — contradicting the claim that
extraction output never contains them. -/
theorem claim_C4_cex :
    isTemplate [lbrace, lbrace, rbrace, rbrace] = true ∧
    processTemplate (.vobj []) [lbrace, lbrace, rbrace, rbrace] =
      [lbrace, lbrace, rbrace, rbrace] ∧
    containsSub (processTemplate (.vobj []) [lbrace, lbrace, rbrace, rbrace])
      [lbrace, lbrace] = true := by
  have hp : processTemplate (.vobj []) [lbrace, lbrace, rbrace, rbrace] =
      [lbrace, lbrace, rbrace, rbrace] := by
    simp [processTemplate, substPlaceholders, findPlaceholders, postProcessTemplate,
      goTrimSpace, isGoSpace, collapseCommaRun, matchCommaRun, isRegexSpace,
      stripLeading, stripTrailing, lbrace, rbrace]
  refine ⟨by decide, hp, ?_⟩
  rw [hp]
  decide

/-- C4 (amended): for every record and every well-formed template — an
alternation of brace-free literal text with placeholders whose names are
non-empty, brace-free and substitute to brace-free values — extraction
computes exactly the declarative substitution (each placeholder replaced
in place by the string form of the value at its path, empty when absent)
followed by the comma/whitespace post-processing, and the result contains
no opening or closing double-brace substring. -/
theorem claim_C4_amended (record : GoVal) (segs : List TmplSeg)
    (hgood : ∀ seg ∈ segs, goodSeg record seg) :
    processTemplate record (renderTemplate segs) =
      postProcessTemplate (specSubstitute record segs) ∧
    containsSub (processTemplate record (renderTemplate segs))
      [lbrace, lbrace] = false ∧
    containsSub (processTemplate record (renderTemplate segs))
      [rbrace, rbrace] = false := by
  have heq : processTemplate record (renderTemplate segs) =
      postProcessTemplate (specSubstitute record segs) := by
    rw [processTemplate, substPlaceholders_render record segs hgood]
  have hbf2 : braceFree (postProcessTemplate (specSubstitute record segs)) = true :=
    braceFree_post (braceFree_specSubstitute hgood)
  refine ⟨heq, ?_, ?_⟩
  · rw [heq]
    exact containsSub_two_false (fun c hc => (braceFree_chars hbf2 c hc).1)
  · rw [heq]
    exact containsSub_two_false (fun c hc => (braceFree_chars hbf2 c hc).2)

/-- Witness for the amended C4 theorem: a record holding a name and the
two-segment template of a literal followed by a placeholder. -/
theorem claim_C4_amended_witness :
    processTemplate (.vobj [(gs "name", .vstr (gs "Grand"))])
        (renderTemplate [.lit (gs "Hotel "), .ph (gs "name")]) =
      postProcessTemplate (specSubstitute (.vobj [(gs "name", .vstr (gs "Grand"))])
        [.lit (gs "Hotel "), .ph (gs "name")]) ∧
    containsSub (processTemplate (.vobj [(gs "name", .vstr (gs "Grand"))])
        (renderTemplate [.lit (gs "Hotel "), .ph (gs "name")]))
      [lbrace, lbrace] = false ∧
    containsSub (processTemplate (.vobj [(gs "name", .vstr (gs "Grand"))])
        (renderTemplate [.lit (gs "Hotel "), .ph (gs "name")]))
      [rbrace, rbrace] = false := by
  apply claim_C4_amended
  intro seg hm
  rcases List.mem_cons.mp hm with h1 | h1
  · subst h1
    exact (by decide : braceFree (gs "Hotel ") = true)
  · rcases List.mem_cons.mp h1 with h2 | h2
    · subst h2
      exact ⟨by decide, by decide, by decide⟩
    · exact absurd h2 (by simp)

end HotelsMerge
